import Mathlib

/-!
# HypeScript toolchain: shallow embedding and verification

This file embeds the live HypeScript toolchain (crates `hypescript-bytecode`,
`hypescript-vm`, `hypescript-lang`) in Lean 4 and proves properties of the
embedded definitions.

Conventions used throughout:

* Machine words (`u64` cells, `usize` counters) are `Nat` with explicit
  reduction `% 2^64` at every point where the Rust code can wrap.
* Rust `Vec` stacks (operand stack, token buffer) are Lean lists with the
  head as the `Vec`'s *end* (the push/pop end); the variable slot array is a
  Lean list in index order (head = index 0).
* Fallible Rust functions returning `Result` become `Except`; code paths
  that can panic (e.g. `Option::unwrap`) are modelled with a dedicated
  result constructor `panics`.
-/

namespace Hypescript

/-- 2^64, the modulus of a 64-bit cell. -/
def U64MOD : Nat := 18446744073709551616

/-- 2^63, the boundary between nonnegative and negative two's-complement
64-bit patterns. -/
def I64HALF : Nat := 9223372036854775808

/-! ## Big-endian byte strings

`u64::to_be_bytes` / `from_be_bytes` restricted to the low `len` bytes,
as used by `Instruction::encode_to_stream` / `decode_from_stream`. -/

/-- The low `len` bytes of `n`, in big-endian order (the last `len` bytes of
`n.to_be_bytes()`). -/
def toBytesBE : Nat → Nat → List Nat
  | 0, _ => []
  | len + 1, n => toBytesBE len (n / 256) ++ [n % 256]

/-- Read a big-endian byte string as an unsigned integer
(`uN::from_be_bytes`, zero-extended). -/
def fromBytesBE (bs : List Nat) : Nat :=
  bs.foldl (fun acc b => acc * 256 + b) 0

/-- Sign-extend an unsigned `len`-byte value (`len ∈ {1,2,4}`) to the 64-bit
two's-complement pattern of the same signed value (`iN as u64`). -/
def signExtend (len n : Nat) : Nat :=
  if n < 2 ^ (8 * len - 1) then n else n + (U64MOD - 2 ^ (8 * len))

/-! ## Opcodes (`hypescript-bytecode`)

Byte tags: the crate's `consts` module is not part of the sources at hand
(only `pub mod consts;` and `use consts::*;` remain), so the numeric tags
below are Modelled from the spec: §6's reference assignment (variable ops
0x18–0x1e, pushes 0x28–0x2e, stack ops 0x30–0x35, arithmetic 0x38–0x3f,
comparisons/logic 0x50–0x5d, control 0x60–0x61, I/O 0xfa–0xfd, halt 0xff),
cross-checked against the sibling `nilscript-bytecode` snapshot which spells
the same assignment out (the live set drops that snapshot's `MulS`/`ModS`). -/

/-- `Opcode`: the 44 operations of the live compiler and VM. -/
inductive Opcode where
  | VarSt | VarLd | VarRes | VarDisc | NumVars
  | Push8 | Push8S | Push16 | Push16S | Push32 | Push32S | Push64
  | Dup0 | Dup1 | Dup2 | Dup3 | Pop | Swap
  | Add | Sub | Mul | Mod | Div | DivS
  | Gt | GtS | Lt | LtS | Ge | GeS | Le | LeS
  | Eq | And | Or | Xor | Not | Inv
  | Jump | JCond
  | Read | ReadS | Print | PrintS
  | Halt
  deriving DecidableEq, Repr

namespace Opcode

/-- The byte tag of each opcode (`Opcode as u8`). Modelled from the spec:
see the section comment above — `consts.rs` is absent from the sources. -/
def toByte : Opcode → Nat
  | .VarSt => 0x18
  | .VarLd => 0x1a
  | .VarRes => 0x1c
  | .VarDisc => 0x1d
  | .NumVars => 0x1e
  | .Push8 => 0x28
  | .Push8S => 0x29
  | .Push16 => 0x2a
  | .Push16S => 0x2b
  | .Push32 => 0x2c
  | .Push32S => 0x2d
  | .Push64 => 0x2e
  | .Dup0 => 0x30
  | .Dup1 => 0x31
  | .Dup2 => 0x32
  | .Dup3 => 0x33
  | .Pop => 0x34
  | .Swap => 0x35
  | .Add => 0x38
  | .Sub => 0x39
  | .Mul => 0x3a
  | .Mod => 0x3e
  | .Div => 0x3c
  | .DivS => 0x3d
  | .Gt => 0x50
  | .GtS => 0x51
  | .Lt => 0x52
  | .LtS => 0x53
  | .Ge => 0x54
  | .GeS => 0x55
  | .Le => 0x56
  | .LeS => 0x57
  | .Eq => 0x58
  | .And => 0x59
  | .Or => 0x5a
  | .Xor => 0x5b
  | .Not => 0x5c
  | .Inv => 0x5d
  | .Jump => 0x60
  | .JCond => 0x61
  | .Read => 0xfa
  | .ReadS => 0xfb
  | .Print => 0xfc
  | .PrintS => 0xfd
  | .Halt => 0xff

/-- `Opcode::from_u8`: parse a byte tag back into an opcode. -/
def fromU8 (byte : Nat) : Option Opcode :=
  if byte = 0x18 then some .VarSt
  else if byte = 0x1a then some .VarLd
  else if byte = 0x1c then some .VarRes
  else if byte = 0x1d then some .VarDisc
  else if byte = 0x1e then some .NumVars
  else if byte = 0x28 then some .Push8
  else if byte = 0x29 then some .Push8S
  else if byte = 0x2a then some .Push16
  else if byte = 0x2b then some .Push16S
  else if byte = 0x2c then some .Push32
  else if byte = 0x2d then some .Push32S
  else if byte = 0x2e then some .Push64
  else if byte = 0x30 then some .Dup0
  else if byte = 0x31 then some .Dup1
  else if byte = 0x32 then some .Dup2
  else if byte = 0x33 then some .Dup3
  else if byte = 0x34 then some .Pop
  else if byte = 0x35 then some .Swap
  else if byte = 0x38 then some .Add
  else if byte = 0x39 then some .Sub
  else if byte = 0x3a then some .Mul
  else if byte = 0x3e then some .Mod
  else if byte = 0x3c then some .Div
  else if byte = 0x3d then some .DivS
  else if byte = 0x50 then some .Gt
  else if byte = 0x51 then some .GtS
  else if byte = 0x52 then some .Lt
  else if byte = 0x53 then some .LtS
  else if byte = 0x54 then some .Ge
  else if byte = 0x55 then some .GeS
  else if byte = 0x56 then some .Le
  else if byte = 0x57 then some .LeS
  else if byte = 0x58 then some .Eq
  else if byte = 0x59 then some .And
  else if byte = 0x5a then some .Or
  else if byte = 0x5b then some .Xor
  else if byte = 0x5c then some .Not
  else if byte = 0x5d then some .Inv
  else if byte = 0x60 then some .Jump
  else if byte = 0x61 then some .JCond
  else if byte = 0xfa then some .Read
  else if byte = 0xfb then some .ReadS
  else if byte = 0xfc then some .Print
  else if byte = 0xfd then some .PrintS
  else if byte = 0xff then some .Halt
  else none

/-- `Opcode::literal_len`: the number of inline-literal bytes. -/
def literalLen : Opcode → Nat
  | .Push8 | .Push8S => 1
  | .Push16 | .Push16S => 2
  | .Push32 | .Push32S => 4
  | .Push64 => 8
  | _ => 0

/-- The list of all 44 opcodes, in declaration order. -/
def all : List Opcode :=
  [.VarSt, .VarLd, .VarRes, .VarDisc, .NumVars,
   .Push8, .Push8S, .Push16, .Push16S, .Push32, .Push32S, .Push64,
   .Dup0, .Dup1, .Dup2, .Dup3, .Pop, .Swap,
   .Add, .Sub, .Mul, .Mod, .Div, .DivS,
   .Gt, .GtS, .Lt, .LtS, .Ge, .GeS, .Le, .LeS,
   .Eq, .And, .Or, .Xor, .Not, .Inv,
   .Jump, .JCond,
   .Read, .ReadS, .Print, .PrintS,
   .Halt]

end Opcode

/-! ## Instructions: decode and encode -/

/-- `DecodeError`: decoding failures. `unexpectedEof` stands for the
`io::ErrorKind::UnexpectedEof` produced by `read_exact` on a short stream;
`unrecognizedOpcode` for the crate's `DecodeError::UnrecognizedOpcode`. -/
inductive DecodeError where
  | unexpectedEof
  | unrecognizedOpcode
  deriving DecidableEq, Repr

/-- A decoded instruction: opcode plus 64-bit literal cell. -/
structure Instruction where
  opcode : Opcode
  literal : Nat
  deriving DecidableEq, Repr

namespace Instruction

/-- `Instruction::from_opcode` / `From<Opcode>`: literal 0. -/
def fromOpcode (op : Opcode) : Instruction := ⟨op, 0⟩

/-- Widen the raw (unsigned, big-endian) literal bytes value to the 64-bit
cell, per the sign rule of the opcode, as in the `match` inside
`Instruction::decode_from_stream`. -/
def widenLiteral (op : Opcode) (n : Nat) : Nat :=
  match op with
  | .Push8 => n
  | .Push8S => signExtend 1 n
  | .Push16 => n
  | .Push16S => signExtend 2 n
  | .Push32 => n
  | .Push32S => signExtend 4 n
  | .Push64 => n
  | _ => n

/-- `Instruction::decode_from_stream`: read an opcode byte, then
`literal_len` literal bytes, widening per the opcode's sign rule.  Returns
the decoded instruction together with the rest of the stream. -/
def decode (stream : List Nat) : Except DecodeError (Instruction × List Nat) :=
  match stream with
  | [] => .error .unexpectedEof
  | b :: rest =>
    match Opcode.fromU8 b with
    | none => .error .unrecognizedOpcode
    | some op =>
      let len := op.literalLen
      if rest.length < len then .error .unexpectedEof
      else
        let literal := if len > 0 then widenLiteral op (fromBytesBE (rest.take len)) else 0
        .ok (⟨op, literal⟩, rest.drop len)

/-- `Instruction::encode_to_stream`: the opcode byte followed by the low
`literal_len` bytes of the literal in big-endian order. -/
def encode (i : Instruction) : List Nat :=
  i.opcode.toByte :: toBytesBE i.opcode.literalLen i.literal

/-- `Instruction::encoded_len`. -/
def encodedLen (i : Instruction) : Nat := 1 + i.opcode.literalLen

/-- `Instruction::combined_len`. -/
def combinedLen (instrs : List Instruction) : Nat :=
  (instrs.map encodedLen).sum

/-- The canonical form of an instruction's literal: 0 for zero-width
opcodes, otherwise the low `literal_len` bytes re-widened under the
opcode's sign rule.  `decode (encode i)` yields `canonicalize i`. -/
def canonicalize (i : Instruction) : Instruction :=
  let len := i.opcode.literalLen
  if len = 0 then ⟨i.opcode, 0⟩
  else ⟨i.opcode, widenLiteral i.opcode (i.literal % 2 ^ (8 * len))⟩

/-- `Instruction::optimal_push`: the smallest unsigned push whose unsigned
range contains the value. -/
def optimalPush (value : Nat) : Instruction :=
  let opcode : Opcode :=
    if value ≤ 0xff then .Push8
    else if value ≤ 0xffff then .Push16
    else if value ≤ 0xffffffff then .Push32
    else .Push64
  ⟨opcode, value⟩

/-- `Instruction::optimal_pushs`: the smallest signed push whose signed
range contains the value, falling back to `Push64` with the bit-identical
representation (`value as u64`). -/
def optimalPushS (value : Int) : Instruction :=
  let opcode : Opcode :=
    if -128 ≤ value ∧ value ≤ 127 then .Push8S
    else if -32768 ≤ value ∧ value ≤ 32767 then .Push16S
    else if -2147483648 ≤ value ∧ value ≤ 2147483647 then .Push32S
    else .Push64
  ⟨opcode, (value % (U64MOD : Int)).toNat⟩

end Instruction

/-- `write_instructions` / `instructions_to_vec`: concatenated encodings. -/
def instructionsToBytes (instrs : List Instruction) : List Nat :=
  (instrs.map Instruction.encode).flatten

/-! ## Values (`hypescript-vm/src/value.rs`)

A `Value` wraps a `u64`; here it is a `Nat` reduced `% 2^64` wherever the
Rust operation wraps.  `as_i64` is `toSigned64`. -/

/-- `Value::as_i64`: the two's-complement signed reading of a 64-bit cell. -/
def toSigned64 (n : Nat) : Int :=
  let m := n % U64MOD
  if m < I64HALF then (m : Int) else (m : Int) - (U64MOD : Int)

/-- `Value::from_i64`: the 64-bit cell of a signed value (`i64 as u64`). -/
def ofSigned64 (v : Int) : Nat := (v % (U64MOD : Int)).toNat

/-- `ErrorKind`: the VM's runtime error taxonomy. -/
inductive ErrorKind where
  | StackUnderflow
  | OutOfBoundsVariableReference
  | DivideByZero
  | IncompleteLiteral
  | AllocationError
  | NoInputStream
  | InputError
  | OutputError
  | ParseError
  deriving DecidableEq, Repr

namespace Value

/-- `Value::add`: wrapping 64-bit addition. -/
def add (a b : Nat) : Nat := (a + b) % U64MOD

/-- `Value::sub`: wrapping 64-bit subtraction. -/
def sub (a b : Nat) : Nat := (a % U64MOD + (U64MOD - b % U64MOD)) % U64MOD

/-- `Value::mul`: wrapping 64-bit multiplication. -/
def mul (a b : Nat) : Nat := (a * b) % U64MOD

/-- `u64::checked_div`: `None` exactly when the divisor is zero. -/
def checkedDivU64 (a b : Nat) : Option Nat :=
  if b = 0 then none else some (a / b)

/-- `u64::checked_rem`: `None` exactly when the divisor is zero. -/
def checkedRemU64 (a b : Nat) : Option Nat :=
  if b = 0 then none else some (a % b)

/-- `i64::checked_div`: per the Rust documentation, `None` when the divisor
is zero or when the division overflows (`i64::MIN / -1`); otherwise
division truncating toward zero (`Int.tdiv`). -/
def checkedDivI64 (a b : Int) : Option Int :=
  if b = 0 ∨ (a = -(I64HALF : Int) ∧ b = -1) then none else some (a.tdiv b)

/-- `Value::div_unsigned`. -/
def div_unsigned (a b : Nat) : Except ErrorKind Nat :=
  match checkedDivU64 (a % U64MOD) (b % U64MOD) with
  | none => .error .DivideByZero
  | some q => .ok q

/-- `Value::div_signed`. -/
def div_signed (a b : Nat) : Except ErrorKind Nat :=
  match checkedDivI64 (toSigned64 a) (toSigned64 b) with
  | none => .error .DivideByZero
  | some q => .ok (ofSigned64 q)

/-- `Value::mod_`. -/
def mod_ (a b : Nat) : Except ErrorKind Nat :=
  match checkedRemU64 (a % U64MOD) (b % U64MOD) with
  | none => .error .DivideByZero
  | some r => .ok r

/-- Materialize a boolean comparison result as a value (1 or 0). -/
def ofBool (b : Bool) : Nat := if b then 1 else 0

/-- `Value::greater_unsigned`. -/
def greater_unsigned (a b : Nat) : Nat := ofBool (a % U64MOD > b % U64MOD)

/-- `Value::greater_signed`. -/
def greater_signed (a b : Nat) : Nat := ofBool (toSigned64 a > toSigned64 b)

/-- `Value::less_unsigned`. -/
def less_unsigned (a b : Nat) : Nat := ofBool (a % U64MOD < b % U64MOD)

/-- `Value::less_signed`. -/
def less_signed (a b : Nat) : Nat := ofBool (toSigned64 a < toSigned64 b)

/-- `Value::greater_or_eq_unsigned`. -/
def greater_or_eq_unsigned (a b : Nat) : Nat := ofBool (a % U64MOD ≥ b % U64MOD)

/-- `Value::greater_or_eq_signed`. -/
def greater_or_eq_signed (a b : Nat) : Nat := ofBool (toSigned64 a ≥ toSigned64 b)

/-- `Value::less_or_eq_unsigned`. -/
def less_or_eq_unsigned (a b : Nat) : Nat := ofBool (a % U64MOD ≤ b % U64MOD)

/-- `Value::less_or_eq_signed`. -/
def less_or_eq_signed (a b : Nat) : Nat := ofBool (toSigned64 a ≤ toSigned64 b)

/-- `Value::eq`: bitwise equality of all 64 bits. -/
def eq (a b : Nat) : Nat := ofBool (a % U64MOD = b % U64MOD)

/-- `Value::and`. -/
def and (a b : Nat) : Nat := Nat.land (a % U64MOD) (b % U64MOD)

/-- `Value::or`. -/
def or (a b : Nat) : Nat := Nat.lor (a % U64MOD) (b % U64MOD)

/-- `Value::xor`. -/
def xor (a b : Nat) : Nat := Nat.xor (a % U64MOD) (b % U64MOD)

/-- `Value::not`: logical negation (1 if 0, else 0). -/
def not (a : Nat) : Nat := ofBool (a % U64MOD = 0)

/-- `Value::inv`: bitwise complement of a 64-bit cell. -/
def inv (a : Nat) : Nat := U64MOD - 1 - a % U64MOD

end Value

/-! ## Input tokenization and integer parsing -/

/-- Helper for `splitWhitespace`: walk the characters, accumulating the
current (reversed) token. -/
def splitWhitespaceAux : List Char → List Char → List String
  | [], acc => if acc.isEmpty then [] else [String.mk acc.reverse]
  | c :: cs, acc =>
    if c.isWhitespace then
      (if acc.isEmpty then [] else [String.mk acc.reverse]) ++ splitWhitespaceAux cs []
    else splitWhitespaceAux cs (c :: acc)

/-- `str::split_whitespace`: the maximal non-empty runs of non-whitespace
characters, in order. -/
def splitWhitespace (s : String) : List String :=
  splitWhitespaceAux s.data []

/-- `str::parse::<u64>`: an optional leading `+`, then at least one ASCII
digit, value within the `u64` range. -/
def parseU64 (s : String) : Option Nat :=
  let cs := s.data
  let digits := match cs with
    | '+' :: rest => rest
    | _ => cs
  if digits = [] ∨ ¬ digits.all Char.isDigit then none
  else
    let v := digits.foldl (fun acc c => acc * 10 + (c.toNat - 48)) 0
    if v < U64MOD then some v else none

/-- `str::parse::<i64>`: an optional leading `+` or `-`, then at least one
ASCII digit, value within the `i64` range. -/
def parseI64 (s : String) : Option Int :=
  let cs := s.data
  let (neg, digits) := match cs with
    | '+' :: rest => (false, rest)
    | '-' :: rest => (true, rest)
    | _ => (false, cs)
  if digits = [] ∨ ¬ digits.all Char.isDigit then none
  else
    let v : Nat := digits.foldl (fun acc c => acc * 10 + (c.toNat - 48)) 0
    let signed : Int := if neg then -(v : Int) else (v : Int)
    if -(I64HALF : Int) ≤ signed ∧ signed < (I64HALF : Int) then some signed else none

/-! ## The execution engine (`hypescript-vm/src/lib.rs`) -/

/-- The machine state of `ExecutionContext`.

* `program`: the immutable byte slice.
* `pc`: `program_counter` (`usize`, modelled mod 2^64).
* `stack`: the operand stack; list head = top of stack (the `Vec`'s end).
* `localVars`: the variable slot array, in index order.
* `input`: `none` if no input stream is configured, otherwise the list of
  lines remaining on the stream (a `BufRead` read one line at a time;
  stream-level I/O errors are not modelled).
* `inputBuffer`: the pending token buffer.  The Rust buffer holds the
  tokens of a line in reverse and pops from the `Vec`'s end; the list here
  holds them head-first in line order, so that `pop` = take the head.
* `outputConfigured` / `output`: the output stream (writes never fail in
  this model). -/
structure VmState where
  program : List Nat
  pc : Nat
  stack : List Nat
  localVars : List Nat
  input : Option (List String)
  inputBuffer : List String
  outputConfigured : Bool
  output : List String
  deriving Repr

/-- The result of a Rust code path that may return a value, return an
error, or panic. -/
inductive RustResult (α : Type) where
  | ok (a : α)
  | err (e : ErrorKind)
  | panics
  deriving Repr

namespace VmState

/-- `ExecutionContext::new` with the given program, plus the stream
configuration chosen by the host. -/
def init (program : List Nat) (input : Option (List String)) (outputConfigured : Bool) : VmState :=
  { program := program, pc := 0, stack := [], localVars := [],
    input := input, inputBuffer := [], outputConfigured := outputConfigured, output := [] }

/-- `pop_stack`. -/
def popStack (s : VmState) : Except ErrorKind (Nat × VmState) :=
  match s.stack with
  | [] => .error .StackUnderflow
  | v :: rest => .ok (v, { s with stack := rest })

/-- `push_stack`. -/
def pushStack (s : VmState) (v : Nat) : VmState :=
  { s with stack := v :: s.stack }

/-- `read_var`: `n.as_u64() as usize`, bounds-checked slot read. -/
def readVar (s : VmState) (n : Nat) : Except ErrorKind Nat :=
  match s.localVars.get? (n % U64MOD) with
  | none => .error .OutOfBoundsVariableReference
  | some v => .ok v

/-- `write_var`: bounds-checked slot write. -/
def writeVar (s : VmState) (n x : Nat) : Except ErrorKind VmState :=
  if n % U64MOD < s.localVars.length then
    .ok { s with localVars := s.localVars.set (n % U64MOD) x }
  else .error .OutOfBoundsVariableReference

/-- `varst`: pop index, pop value, store. -/
def varst (s : VmState) : Except ErrorKind VmState := do
  let (n, s) ← s.popStack
  let (x, s) ← s.popStack
  s.writeVar n x

/-- `varld`: pop index, push slot value. -/
def varld (s : VmState) : Except ErrorKind VmState := do
  let (n, s) ← s.popStack
  let x ← s.readVar n
  return s.pushStack x

/-- `varres`: pop count, append that many zero slots.  (`try_reserve`
failure — host allocation failure — is not modelled.) -/
def varres (s : VmState) : Except ErrorKind VmState := do
  let (n, s) ← s.popStack
  return { s with localVars := s.localVars ++ List.replicate (n % U64MOD) 0 }

/-- `vardisc`: pop count, truncate the slot array by that many (clearing
it entirely if the count reaches or exceeds its length). -/
def vardisc (s : VmState) : Except ErrorKind VmState := do
  let (n, s) ← s.popStack
  let n := n % U64MOD
  if n < s.localVars.length then
    return { s with localVars := s.localVars.take (s.localVars.length - n) }
  else
    return { s with localVars := [] }

/-- `numvars`: push the slot count. -/
def numvars (s : VmState) : VmState :=
  s.pushStack (s.localVars.length % U64MOD)

/-- `dupn`: copy the element `n` below the top onto the top. -/
def dupn (s : VmState) (n : Nat) : Except ErrorKind VmState :=
  match s.stack.get? n with
  | some v => .ok (s.pushStack v)
  | none => .error .StackUnderflow

/-- `pop` instruction. -/
def popInstr (s : VmState) : Except ErrorKind VmState := do
  let (_, s) ← s.popStack
  return s

/-- `swap`: exchange the top two stack elements. -/
def swap (s : VmState) : Except ErrorKind VmState :=
  match s.stack with
  | a :: b :: rest => .ok { s with stack := b :: a :: rest }
  | _ => .error .StackUnderflow

/-- `binop_infallible`: pop `b`, pop `a`, push `op a b`. -/
def binopInfallible (s : VmState) (op : Nat → Nat → Nat) : Except ErrorKind VmState := do
  let (b, s) ← s.popStack
  let (a, s) ← s.popStack
  return s.pushStack (op a b)

/-- `binop_fallible`: pop `b`, pop `a`, push `op a b` or propagate its
error. -/
def binopFallible (s : VmState) (op : Nat → Nat → Except ErrorKind Nat) :
    Except ErrorKind VmState := do
  let (b, s) ← s.popStack
  let (a, s) ← s.popStack
  let v ← op a b
  return s.pushStack v

/-- `unop`: pop `a`, push `op a`. -/
def unop (s : VmState) (op : Nat → Nat) : Except ErrorKind VmState := do
  let (a, s) ← s.popStack
  return s.pushStack (op a)

/-- `jump`: pop a signed offset and add it to the program counter with
`usize::wrapping_add_signed`; bit-for-bit this is wrapping addition of the
popped 64-bit cell. -/
def jump (s : VmState) : Except ErrorKind VmState := do
  let (n, s) ← s.popStack
  return { s with pc := (s.pc + n) % U64MOD }

/-- `jcond`: pop a signed offset, pop a boolean; jump if it is nonzero. -/
def jcond (s : VmState) : Except ErrorKind VmState := do
  let (n, s) ← s.popStack
  let (b, s) ← s.popStack
  if b % U64MOD ≠ 0 then
    return { s with pc := (s.pc + n) % U64MOD }
  else
    return s

/-- `fill_input_buffer`: error with `NoInputStream` if no input stream is
configured; otherwise, if the token buffer is empty, read one line (at
end-of-file `read_line` returns success with an empty line) and refill the
buffer with its whitespace-separated tokens. -/
def fillInputBuffer (s : VmState) : Except ErrorKind VmState :=
  match s.input with
  | none => .error .NoInputStream
  | some lines =>
    if s.inputBuffer = [] then
      match lines with
      | [] => .ok { s with inputBuffer := splitWhitespace "" }
      | l :: rest => .ok { s with input := some rest, inputBuffer := splitWhitespace l }
    else .ok s

/-- `read`: fill the token buffer, pop one token (`Option::unwrap` — a
panic if the buffer is still empty), parse it as unsigned or signed, and
push the value. -/
def readInstr (s : VmState) (signed : Bool) : RustResult VmState :=
  match fillInputBuffer s with
  | .error e => .err e
  | .ok s =>
    match s.inputBuffer with
    | [] => .panics
    | tok :: rest =>
      let s := { s with inputBuffer := rest }
      if signed then
        match parseI64 tok with
        | none => .err .ParseError
        | some v => .ok (s.pushStack (ofSigned64 v))
      else
        match parseU64 tok with
        | none => .err .ParseError
        | some v => .ok (s.pushStack v)

/-- `print`: pop a value; if an output stream is configured, write its
decimal formatting (unsigned or signed) on its own line. -/
def printInstr (s : VmState) (signed : Bool) : Except ErrorKind VmState := do
  let (v, s) ← s.popStack
  if s.outputConfigured then
    let line := if signed then toString (toSigned64 v) else toString (v % U64MOD)
    return { s with output := s.output ++ [line] }
  else
    return s

end VmState

/-- `ExecutionContext::execute_instruction`: dispatch on the opcode.
Returns the updated state and the PC advance (`0` for `Halt`). -/
def executeInstruction (s : VmState) (i : Instruction) : RustResult (VmState × Nat) :=
  let advance := 1 + i.opcode.literalLen
  let lift : Except ErrorKind VmState → RustResult (VmState × Nat) := fun r =>
    match r with
    | .error e => .err e
    | .ok s' => .ok (s', advance)
  match i.opcode with
  | .VarSt => lift s.varst
  | .VarLd => lift s.varld
  | .VarRes => lift s.varres
  | .VarDisc => lift s.vardisc
  | .NumVars => .ok (s.numvars, advance)
  | .Push8 | .Push8S | .Push16 | .Push16S | .Push32 | .Push32S | .Push64 =>
    .ok (s.pushStack (i.literal % U64MOD), advance)
  | .Dup0 => lift (s.dupn 0)
  | .Dup1 => lift (s.dupn 1)
  | .Dup2 => lift (s.dupn 2)
  | .Dup3 => lift (s.dupn 3)
  | .Pop => lift s.popInstr
  | .Swap => lift s.swap
  | .Add => lift (s.binopInfallible Value.add)
  | .Sub => lift (s.binopInfallible Value.sub)
  | .Mul => lift (s.binopInfallible Value.mul)
  | .Mod => lift (s.binopFallible Value.mod_)
  | .Div => lift (s.binopFallible Value.div_unsigned)
  | .DivS => lift (s.binopFallible Value.div_signed)
  | .Gt => lift (s.binopInfallible Value.greater_unsigned)
  | .GtS => lift (s.binopInfallible Value.greater_signed)
  | .Lt => lift (s.binopInfallible Value.less_unsigned)
  | .LtS => lift (s.binopInfallible Value.less_signed)
  | .Ge => lift (s.binopInfallible Value.greater_or_eq_unsigned)
  | .GeS => lift (s.binopInfallible Value.greater_or_eq_signed)
  | .Le => lift (s.binopInfallible Value.less_or_eq_unsigned)
  | .LeS => lift (s.binopInfallible Value.less_or_eq_signed)
  | .Eq => lift (s.binopInfallible Value.eq)
  | .And => lift (s.binopInfallible Value.and)
  | .Or => lift (s.binopInfallible Value.or)
  | .Xor => lift (s.binopInfallible Value.xor)
  | .Not => lift (s.unop Value.not)
  | .Inv => lift (s.unop Value.inv)
  | .Jump => lift s.jump
  | .JCond => lift s.jcond
  | .Read => match s.readInstr false with
    | .ok s' => .ok (s', advance)
    | .err e => .err e
    | .panics => .panics
  | .ReadS => match s.readInstr true with
    | .ok s' => .ok (s', advance)
    | .err e => .err e
    | .panics => .panics
  | .Print => lift (s.printInstr false)
  | .PrintS => lift (s.printInstr true)
  | .Halt => .ok (s, 0)

/-- The outcome of one iteration of the `run` loop. -/
inductive StepRes where
  | next (s : VmState)
  | done (s : VmState)
  | fail (e : ErrorKind)
  | panicked
  deriving Repr

/-- One iteration of `ExecutionContext::run`'s loop: exit normally when the
PC has reached the program length; otherwise decode (any decode failure
surfaces as `IncompleteLiteral`), execute, and either stop (`Halt`, advance
0) or advance the PC. -/
def vmStep (s : VmState) : StepRes :=
  if s.pc < s.program.length then
    match Instruction.decode (s.program.drop s.pc) with
    | .error _ => .fail .IncompleteLiteral
    | .ok (i, _) =>
      match executeInstruction s i with
      | .panics => .panicked
      | .err e => .fail e
      | .ok (s', advance) =>
        if advance = 0 then .done s'
        else .next { s' with pc := (s'.pc + advance) % U64MOD }
  else .done s

/-- The end-state summary returned by `run` (the trace is not modelled). -/
structure ExecutionSummary where
  pc : Nat
  stack : List Nat
  localVars : List Nat
  output : List String
  deriving Repr

/-- Build the `ExecutionSummary` of a final state. -/
def mkSummary (s : VmState) : ExecutionSummary :=
  { pc := s.pc, stack := s.stack, localVars := s.localVars, output := s.output }

/-- The outcome of `ExecutionContext::run` under a fuel bound. -/
inductive RunRes where
  | ok (summary : ExecutionSummary)
  | fail (e : ErrorKind)
  | panicked
  | fuelOut
  deriving Repr

/-- `ExecutionContext::run`, iterated up to `fuel` loop iterations. -/
def runLoop : Nat → VmState → RunRes
  | 0, _ => .fuelOut
  | fuel + 1, s =>
    match vmStep s with
    | .done s' => .ok (mkSummary s')
    | .next s' => runLoop fuel s'
    | .fail e => .fail e
    | .panicked => .panicked

/-! ## The source language (`hypescript-lang`) -/

/-- `BinopSym`: the 16 binary operator symbols. -/
inductive BinopSym where
  | plus | minus | mul | div | mod | greater | less | greaterEq | lessEq
  | eq | neq | bitAnd | bitOr | bitXor | logAnd | logOr
  deriving DecidableEq, Repr

/-- `UnopSym`: the 2 unary operator symbols. -/
inductive UnopSym where
  | bitNot | logNot
  deriving DecidableEq, Repr

/-- `Ast`: the abstract syntax tree. -/
inductive Ast where
  | block : List Ast → Ast
  | var : String → Ast
  | int : Nat → Ast
  | boolean : Bool → Ast
  | assign : String → Ast → Ast
  | ifCond : Ast → List Ast → List Ast → Ast
  | binop : BinopSym → Ast → Ast → Ast
  | unop : UnopSym → Ast → Ast
  | print : Ast → Ast
  deriving Repr

/-! ### Type checker (`hypescript-lang/src/types.rs`) -/

/-- `Type`: the three types of the language. -/
inductive Ty where
  | int | bool | unit
  deriving DecidableEq, Repr

/-- `BinopClass::classify`. -/
def binopClass (op : BinopSym) : Ty × Ty :=
  -- (operand type, result type), combining `classify`, the operand-type
  -- match in `typecheck_one`, and `result_ty`.
  match op with
  | .plus | .minus | .mul | .div | .mod | .bitAnd | .bitOr | .bitXor => (.int, .int)
  | .greater | .less | .greaterEq | .lessEq | .eq | .neq => (.int, .bool)
  | .logAnd | .logOr => (.bool, .bool)

/-- `TypeError`: the type checker's error taxonomy. -/
inductive TypeError where
  | NonUnitInSequence (found : Ty)
  | AssignUnitValue (name : String)
  | VariableTypeMismatch (name : String) (ty newTy : Ty)
  | UndeclaredVariable (name : String)
  | InvalidConditionType (found : Ty)
  | NonUnitBareIfStatement (found : Ty)
  | MismatchedIfElseTypes (ifTy elseTy : Ty)
  | InvalidOperandType (expected found : Ty)
  | InvalidPrintValueType (found : Ty)
  deriving DecidableEq, Repr

/-- `TypingContext`: the ordered variable/type bindings, in push order
(head = first bound). -/
abbrev TypingContext := List (String × Ty)

/-- `TypingContext::lookup`: the binding for the *last* occurrence of the
name (`iter().rev().find_map`). -/
def lookupTy (ctx : TypingContext) (v : String) : Option Ty :=
  ((ctx.reverse).find? (fun p => p.1 = v)).map (·.2)

/-- `TypingContext::bind`: rebinding to a different type errors; a new name
is pushed at the end. -/
def bindTy (ctx : TypingContext) (v : String) (ty : Ty) :
    Except TypeError TypingContext :=
  match lookupTy ctx v with
  | some oldTy =>
    if oldTy = ty then .ok ctx
    else .error (.VariableTypeMismatch v oldTy ty)
  | none => .ok (ctx ++ [(v, ty)])

mutual

/-- `typecheck_one`: type a single AST node, threading the (mutable)
context through. -/
def typecheckOne (ctx : TypingContext) (ast : Ast) :
    Except TypeError (Ty × TypingContext) :=
  match ast with
  | .block seq =>
    -- `in_new_scope`: the inner context is a clone; the outer context is
    -- returned unchanged.
    match typecheckSeq ctx seq with
    | .error e => .error e
    | .ok (ty, _) => .ok (ty, ctx)
  | .var v =>
    match lookupTy ctx v with
    | some ty => .ok (ty, ctx)
    | none => .error (.UndeclaredVariable v)
  | .int _ => .ok (.int, ctx)
  | .boolean _ => .ok (.bool, ctx)
  | .assign v value =>
    match typecheckOne ctx value with
    | .error e => .error e
    | .ok (ty, ctx₁) =>
      if ty = .unit then .error (.AssignUnitValue v)
      else
        match bindTy ctx₁ v ty with
        | .error e => .error e
        | .ok ctx₂ => .ok (.unit, ctx₂)
  | .ifCond cond body elseBody =>
    match typecheckOne ctx cond with
    | .error e => .error e
    | .ok (condTy, ctx₁) =>
      if condTy ≠ .bool then .error (.InvalidConditionType condTy)
      else
        match typecheckSeq ctx₁ body with
        | .error e => .error e
        | .ok (bodyTy, _) =>
          if elseBody.isEmpty then
            if bodyTy = .unit then .ok (.unit, ctx₁)
            else .error (.NonUnitBareIfStatement bodyTy)
          else
            match typecheckSeq ctx₁ elseBody with
            | .error e => .error e
            | .ok (elseTy, _) =>
              if bodyTy = elseTy then .ok (bodyTy, ctx₁)
              else .error (.MismatchedIfElseTypes bodyTy elseTy)
  | .binop sym lhs rhs =>
    let (operandTy, resultTy) := binopClass sym
    match typecheckOne ctx lhs with
    | .error e => .error e
    | .ok (lhsTy, ctx₁) =>
      if lhsTy ≠ operandTy then .error (.InvalidOperandType operandTy lhsTy)
      else
        match typecheckOne ctx₁ rhs with
        | .error e => .error e
        | .ok (rhsTy, ctx₂) =>
          if rhsTy ≠ operandTy then .error (.InvalidOperandType operandTy rhsTy)
          else .ok (resultTy, ctx₂)
  | .unop sym operand =>
    let expectedTy : Ty := match sym with
      | .bitNot => .int
      | .logNot => .bool
    match typecheckOne ctx operand with
    | .error e => .error e
    | .ok (foundTy, ctx₁) =>
      if foundTy ≠ expectedTy then .error (.InvalidOperandType expectedTy foundTy)
      else .ok (expectedTy, ctx₁)
  | .print value =>
    match typecheckOne ctx value with
    | .error e => .error e
    | .ok (valTy, ctx₁) =>
      if valTy = .int ∨ valTy = .bool then .ok (.unit, ctx₁)
      else .error (.InvalidPrintValueType valTy)

/-- `typecheck_sequence`: every statement except possibly the last must be
`Unit`; the last statement's type is the sequence's.  (The Rust fold over
`Result` is equivalent to this left-to-right recursion.) -/
def typecheckSeq (ctx : TypingContext) (seq : List Ast) :
    Except TypeError (Ty × TypingContext) :=
  match seq with
  | [] => .ok (.unit, ctx)
  | ast :: rest =>
    match typecheckOne ctx ast with
    | .error e => .error e
    | .ok (ty, ctx₁) =>
      match rest with
      | [] => .ok (ty, ctx₁)
      | _ :: _ =>
        if ty ≠ .unit then .error (.NonUnitInSequence ty)
        else typecheckSeq ctx₁ rest

end

/-- `typecheck`: type a whole program in an empty context. -/
def typecheck (program : List Ast) : Except TypeError (Ty × TypingContext) :=
  typecheckSeq [] program

/-! ### Code generation (`hypescript-lang/src/codegen.rs`) -/

/-- `CodegenError`. -/
inductive CodegenError where
  | UndeclaredVariable (name : String)
  deriving DecidableEq, Repr

/-- `Context`: the ordered list of variable names in scope plus the running
maximum slot count. -/
structure CgContext where
  vars : List String
  maxVars : Nat
  deriving DecidableEq, Repr

/-- `Context::default()`. -/
def CgContext.empty : CgContext := ⟨[], 0⟩

/-- `Vec::rposition`: index of the *last* occurrence of `v` (so inner
shadowings win), counting from the front of the list. -/
def rposition (vars : List String) (v : String) : Option Nat :=
  match vars with
  | [] => none
  | x :: xs =>
    match rposition xs v with
    | some i => some (i + 1)
    | none => if x = v then some 0 else none

/-- `Context::index_of`. -/
def CgContext.indexOf (ctx : CgContext) (v : String) : Option Nat :=
  rposition ctx.vars v

/-- `Context::assign_var`: look up the name, or allocate it at the end and
bump the running maximum. -/
def CgContext.assignVar (ctx : CgContext) (v : String) : Nat × CgContext :=
  match ctx.indexOf v with
  | some i => (i, ctx)
  | none =>
    (ctx.vars.length,
     { vars := ctx.vars ++ [v],
       maxVars := max ctx.maxVars (ctx.vars.length + 1) })

/-- `Context::in_new_scope`'s bookkeeping on exit: the outer context keeps
its own variables and takes the max of the two slot maxima. -/
def CgContext.exitScope (outer inner : CgContext) : CgContext :=
  { vars := outer.vars, maxVars := max outer.maxVars inner.maxVars }

/-- `append_binop_instrs`: one opcode per binary operator, except `!=`
which is `Eq` then `Not`. -/
def binopInstrs (op : BinopSym) : List Instruction :=
  match op with
  | .plus => [Instruction.fromOpcode .Add]
  | .minus => [Instruction.fromOpcode .Sub]
  | .mul => [Instruction.fromOpcode .Mul]
  | .div => [Instruction.fromOpcode .Div]
  | .mod => [Instruction.fromOpcode .Mod]
  | .greater => [Instruction.fromOpcode .Gt]
  | .less => [Instruction.fromOpcode .Lt]
  | .greaterEq => [Instruction.fromOpcode .Ge]
  | .lessEq => [Instruction.fromOpcode .Le]
  | .eq => [Instruction.fromOpcode .Eq]
  | .neq => [Instruction.fromOpcode .Eq, Instruction.fromOpcode .Not]
  | .bitAnd | .logAnd => [Instruction.fromOpcode .And]
  | .bitOr | .logOr => [Instruction.fromOpcode .Or]
  | .bitXor => [Instruction.fromOpcode .Xor]

/-- `append_unop_instrs`. -/
def unopInstrs (op : UnopSym) : List Instruction :=
  match op with
  | .bitNot => [Instruction.fromOpcode .Inv]
  | .logNot => [Instruction.fromOpcode .Not]

mutual

/-- `translate_one`: translate a single AST node, returning the updated
context and the instructions this node appends to the output stream. -/
def translateOne (ctx : CgContext) (ast : Ast) :
    Except CodegenError (CgContext × List Instruction) :=
  match ast with
  | .block seq =>
    -- `in_new_scope`: translate in a clone, keep the outer variables,
    -- bubble the inner maximum up.
    match translateSeq ctx seq with
    | .error e => .error e
    | .ok (inner, instrs) => .ok (ctx.exitScope inner, instrs)
  | .var v =>
    match ctx.indexOf v with
    | none => .error (.UndeclaredVariable v)
    | some idx =>
      .ok (ctx, [Instruction.optimalPush idx, Instruction.fromOpcode .VarLd])
  | .int val => .ok (ctx, [Instruction.optimalPush val])
  | .boolean val => .ok (ctx, [Instruction.optimalPush (if val then 1 else 0)])
  | .assign v value =>
    match translateOne ctx value with
    | .error e => .error e
    | .ok (ctx₁, valInstrs) =>
      let (idx, ctx₂) := ctx₁.assignVar v
      .ok (ctx₂, valInstrs ++ [Instruction.optimalPush idx, Instruction.fromOpcode .VarSt])
  | .ifCond cond body elseBody =>
    match translateOne ctx cond with
    | .error e => .error e
    | .ok (ctx₁, condInstrs) =>
      match translateSeq ctx₁ body with
      | .error e => .error e
      | .ok (innerIf, bodyInstrs) =>
        let ctx₂ := ctx₁.exitScope innerIf
        match translateSeq ctx₂ elseBody with
        | .error e => .error e
        | .ok (innerElse, elseInstrs) =>
          let ctx₃ := ctx₂.exitScope innerElse
          let elseBodyLen := Instruction.combinedLen elseInstrs
          let ifInstrs := bodyInstrs ++
            (if elseBodyLen > 0 then
              [Instruction.optimalPushS (elseBodyLen : Int), Instruction.fromOpcode .Jump]
            else [])
          let ifBodyLen := Instruction.combinedLen ifInstrs
          .ok (ctx₃,
            condInstrs ++
            [Instruction.fromOpcode .Not,
             Instruction.optimalPushS (ifBodyLen : Int),
             Instruction.fromOpcode .JCond] ++
            ifInstrs ++ elseInstrs)
  | .binop sym lhs rhs =>
    match translateOne ctx lhs with
    | .error e => .error e
    | .ok (ctx₁, lhsInstrs) =>
      match translateOne ctx₁ rhs with
      | .error e => .error e
      | .ok (ctx₂, rhsInstrs) =>
        .ok (ctx₂, lhsInstrs ++ rhsInstrs ++ binopInstrs sym)
  | .unop sym operand =>
    match translateOne ctx operand with
    | .error e => .error e
    | .ok (ctx₁, operandInstrs) => .ok (ctx₁, operandInstrs ++ unopInstrs sym)
  | .print value =>
    match translateOne ctx value with
    | .error e => .error e
    | .ok (ctx₁, valInstrs) => .ok (ctx₁, valInstrs ++ [Instruction.fromOpcode .Print])

/-- `translate_sequence`: translate each node in order, concatenating the
emitted instructions. -/
def translateSeq (ctx : CgContext) (seq : List Ast) :
    Except CodegenError (CgContext × List Instruction) :=
  match seq with
  | [] => .ok (ctx, [])
  | ast :: rest =>
    match translateOne ctx ast with
    | .error e => .error e
    | .ok (ctx₁, instrs) =>
      match translateSeq ctx₁ rest with
      | .error e => .error e
      | .ok (ctx₂, instrsRest) => .ok (ctx₂, instrs ++ instrsRest)

end

/-- `translate`: the whole program.  The Rust code first pushes a
placeholder `Push8`/`VarRes` preamble and overwrites slot 0 with
`optimal_push(ctx.max_vars)` once the body is translated; the net result
is the preamble followed by the body's instructions. -/
def translate (program : List Ast) : Except CodegenError (List Instruction) :=
  match translateSeq CgContext.empty program with
  | .error e => .error e
  | .ok (ctx, instrs) =>
    .ok (Instruction.optimalPush ctx.maxVars :: Instruction.fromOpcode .VarRes :: instrs)

/-! ## Helper lemmas -/

theorem toBytesBE_length (len : Nat) : ∀ n, (toBytesBE len n).length = len := by
  induction len with
  | zero => intro n; rfl
  | succ l ih => intro n; simp [toBytesBE, ih]

theorem fromBytesBE_toBytesBE (len : Nat) :
    ∀ n, fromBytesBE (toBytesBE len n) = n % 256 ^ len := by
  induction len with
  | zero => intro n; simp [toBytesBE, fromBytesBE, Nat.mod_one]
  | succ l ih =>
    intro n
    rw [toBytesBE]
    rw [show fromBytesBE (toBytesBE l (n / 256) ++ [n % 256])
        = fromBytesBE (toBytesBE l (n / 256)) * 256 + n % 256 from by
      simp [fromBytesBE, List.foldl_append]]
    rw [ih]
    rw [show (256 : Nat) ^ (l + 1) = 256 * 256 ^ l from by ring, Nat.mod_mul]
    ring

theorem toSigned64_ofSigned64 (v : Int) (h1 : -(I64HALF : Int) ≤ v) (h2 : v < (I64HALF : Int)) :
    toSigned64 (ofSigned64 v) = v := by
  simp only [toSigned64, ofSigned64, I64HALF, U64MOD] at *
  split <;> omega

theorem signExtend1_ofSigned64 (v : Int) (h1 : -128 ≤ v) (h2 : v ≤ 127) :
    signExtend 1 ((ofSigned64 v) % 2 ^ 8) = ofSigned64 v := by
  simp only [signExtend, ofSigned64, U64MOD]
  norm_num
  split <;> omega

theorem signExtend2_ofSigned64 (v : Int) (h1 : -32768 ≤ v) (h2 : v ≤ 32767) :
    signExtend 2 ((ofSigned64 v) % 2 ^ 16) = ofSigned64 v := by
  simp only [signExtend, ofSigned64, U64MOD]
  norm_num
  split <;> omega

theorem signExtend4_ofSigned64 (v : Int) (h1 : -2147483648 ≤ v) (h2 : v ≤ 2147483647) :
    signExtend 4 ((ofSigned64 v) % 2 ^ 32) = ofSigned64 v := by
  simp only [signExtend, ofSigned64, U64MOD]
  norm_num
  split <;> omega

theorem ofSigned64_lt (v : Int) : ofSigned64 v < U64MOD := by
  simp only [ofSigned64, U64MOD]
  omega

/-- Decoding the encoding of a push instruction recovers the truncated,
re-widened literal. -/
theorem decode_encode_push (op : Opcode) (lit : Nat) (hlen : 0 < op.literalLen)
    (htag : Opcode.fromU8 op.toByte = some op) :
    Instruction.decode (Instruction.encode ⟨op, lit⟩)
      = .ok (⟨op, Instruction.widenLiteral op (lit % 2 ^ (8 * op.literalLen))⟩, []) := by
  have hlength := toBytesBE_length op.literalLen lit
  have htake : (toBytesBE op.literalLen lit).take op.literalLen = toBytesBE op.literalLen lit := by
    have h := List.take_length (toBytesBE op.literalLen lit)
    rwa [hlength] at h
  have hdrop : (toBytesBE op.literalLen lit).drop op.literalLen = [] := by
    have h := List.drop_length (toBytesBE op.literalLen lit)
    rwa [hlength] at h
  have hpow : (256 : Nat) ^ op.literalLen = 2 ^ (8 * op.literalLen) := by
    rw [Nat.pow_mul]
  simp only [Instruction.encode, Instruction.decode, htag, hlength, lt_irrefl, if_false,
    htake, hdrop, fromBytesBE_toBytesBE, hpow, hlen, if_pos, gt_iff_lt]

/-- Decoding an opcode byte followed by exactly `literal_len` literal bytes
widens those bytes per the opcode's sign rule and leaves the rest of the
stream untouched. -/
theorem decode_append_bytes (op : Opcode) (bytes rest : List Nat)
    (hlen : bytes.length = op.literalLen) (h0 : 0 < op.literalLen)
    (htag : Opcode.fromU8 op.toByte = some op) :
    Instruction.decode (op.toByte :: (bytes ++ rest))
      = .ok (⟨op, Instruction.widenLiteral op (fromBytesBE bytes)⟩, rest) := by
  have hnl : ¬ ((bytes ++ rest).length < op.literalLen) := by
    simp only [List.length_append]; omega
  have htake : (bytes ++ rest).take op.literalLen = bytes := by
    rw [← hlen]; exact List.take_left bytes rest
  have hdrop : (bytes ++ rest).drop op.literalLen = rest := by
    rw [← hlen]; exact List.drop_left bytes rest
  simp only [Instruction.decode, htag, hnl, if_false, htake, hdrop, h0, if_pos, gt_iff_lt]

/-- The largest value representable by each unsigned push opcode. -/
def unsignedPushMax : Opcode → Nat
  | .Push8 => 255
  | .Push16 => 65535
  | .Push32 => 4294967295
  | .Push64 => U64MOD - 1
  | _ => 0

/-- The smallest value representable by each signed push opcode. -/
def signedPushMin : Opcode → Int
  | .Push8S => -128
  | .Push16S => -32768
  | .Push32S => -2147483648
  | _ => 0

/-- The largest value representable by each signed push opcode. -/
def signedPushMax : Opcode → Int
  | .Push8S => 127
  | .Push16S => 32767
  | .Push32S => 2147483647
  | _ => 0

/-! ## VM step lemmas -/

namespace VmState

theorem popStack_pc {s : VmState} {v : Nat} {s₁ : VmState} (h : s.popStack = .ok (v, s₁)) :
    s₁.pc = s.pc := by
  unfold popStack at h
  cases hs : s.stack with
  | nil => rw [hs] at h; cases h
  | cons a rest => rw [hs] at h; cases h; rfl

theorem popStack_stack {s : VmState} {v : Nat} {s₁ : VmState} (h : s.popStack = .ok (v, s₁)) :
    s.stack = v :: s₁.stack := by
  unfold popStack at h
  cases hs : s.stack with
  | nil => rw [hs] at h; cases h
  | cons a rest => rw [hs] at h; cases h; rfl

theorem varst_pc {s s₁ : VmState} (h : s.varst = .ok s₁) : s₁.pc = s.pc := by
  unfold varst at h
  cases h1 : s.popStack with
  | error e => rw [h1] at h; cases h
  | ok p =>
    obtain ⟨n, s'⟩ := p
    rw [h1] at h
    simp only [bind, Except.bind] at h
    cases h2 : s'.popStack with
    | error e => rw [h2] at h; cases h
    | ok q =>
      obtain ⟨x, s''⟩ := q
      rw [h2] at h
      simp only [writeVar] at h
      split at h
      · cases h
        simp only [← popStack_pc h1, ← popStack_pc h2]
      · cases h

theorem varld_pc {s s₁ : VmState} (h : s.varld = .ok s₁) : s₁.pc = s.pc := by
  unfold varld at h
  cases h1 : s.popStack with
  | error e => rw [h1] at h; cases h
  | ok p =>
    obtain ⟨n, s'⟩ := p
    rw [h1] at h
    simp only [bind, Except.bind, readVar] at h
    split at h
    · cases h
    · cases h
      simp only [pushStack, ← popStack_pc h1]

theorem varres_pc {s s₁ : VmState} (h : s.varres = .ok s₁) : s₁.pc = s.pc := by
  unfold varres at h
  cases h1 : s.popStack with
  | error e => rw [h1] at h; cases h
  | ok p =>
    obtain ⟨n, s'⟩ := p
    rw [h1] at h
    simp only [bind, Except.bind, pure, Except.pure] at h
    cases h
    simp only [← popStack_pc h1]

theorem vardisc_pc {s s₁ : VmState} (h : s.vardisc = .ok s₁) : s₁.pc = s.pc := by
  unfold vardisc at h
  cases h1 : s.popStack with
  | error e => rw [h1] at h; cases h
  | ok p =>
    obtain ⟨n, s'⟩ := p
    rw [h1] at h
    simp only [bind, Except.bind, pure, Except.pure] at h
    split at h <;> (cases h; simp only [← popStack_pc h1])

theorem dupn_pc {s s₁ : VmState} {n : Nat} (h : s.dupn n = .ok s₁) : s₁.pc = s.pc := by
  unfold dupn at h
  split at h
  · cases h; rfl
  · cases h

theorem popInstr_pc {s s₁ : VmState} (h : s.popInstr = .ok s₁) : s₁.pc = s.pc := by
  unfold popInstr at h
  cases h1 : s.popStack with
  | error e => rw [h1] at h; cases h
  | ok p =>
    obtain ⟨n, s'⟩ := p
    rw [h1] at h
    simp only [bind, Except.bind, pure, Except.pure] at h
    cases h
    exact popStack_pc h1

theorem swap_pc {s s₁ : VmState} (h : s.swap = .ok s₁) : s₁.pc = s.pc := by
  unfold swap at h
  split at h
  · cases h; rfl
  · cases h

theorem binopInfallible_pc {s s₁ : VmState} {op : Nat → Nat → Nat}
    (h : s.binopInfallible op = .ok s₁) : s₁.pc = s.pc := by
  unfold binopInfallible at h
  cases h1 : s.popStack with
  | error e => rw [h1] at h; cases h
  | ok p =>
    obtain ⟨b, s'⟩ := p
    rw [h1] at h
    simp only [bind, Except.bind, pure, Except.pure] at h
    cases h2 : s'.popStack with
    | error e => rw [h2] at h; cases h
    | ok q =>
      obtain ⟨a, s''⟩ := q
      rw [h2] at h
      cases h
      simp only [pushStack, ← popStack_pc h1, ← popStack_pc h2]

theorem binopFallible_pc {s s₁ : VmState} {op : Nat → Nat → Except ErrorKind Nat}
    (h : s.binopFallible op = .ok s₁) : s₁.pc = s.pc := by
  unfold binopFallible at h
  cases h1 : s.popStack with
  | error e => rw [h1] at h; cases h
  | ok p =>
    obtain ⟨b, s'⟩ := p
    rw [h1] at h
    simp only [bind, Except.bind, pure, Except.pure] at h
    cases h2 : s'.popStack with
    | error e => rw [h2] at h; cases h
    | ok q =>
      obtain ⟨a, s''⟩ := q
      rw [h2] at h
      dsimp only at h
      cases h3 : op a b with
      | error e => rw [h3] at h; cases h
      | ok v =>
        rw [h3] at h
        cases h
        simp only [pushStack, ← popStack_pc h1, ← popStack_pc h2]

theorem unop_pc {s s₁ : VmState} {op : Nat → Nat} (h : s.unop op = .ok s₁) : s₁.pc = s.pc := by
  unfold unop at h
  cases h1 : s.popStack with
  | error e => rw [h1] at h; cases h
  | ok p =>
    obtain ⟨a, s'⟩ := p
    rw [h1] at h
    simp only [bind, Except.bind, pure, Except.pure] at h
    cases h
    simp only [pushStack, ← popStack_pc h1]

theorem printInstr_pc {s s₁ : VmState} {b : Bool} (h : s.printInstr b = .ok s₁) :
    s₁.pc = s.pc := by
  unfold printInstr at h
  cases h1 : s.popStack with
  | error e => rw [h1] at h; cases h
  | ok p =>
    obtain ⟨v, s'⟩ := p
    rw [h1] at h
    simp only [bind, Except.bind, pure, Except.pure] at h
    split at h <;> (cases h; simp only [← popStack_pc h1])

theorem fillInputBuffer_pc {s s₁ : VmState} (h : s.fillInputBuffer = .ok s₁) :
    s₁.pc = s.pc := by
  unfold fillInputBuffer at h
  split at h
  · cases h
  · split at h
    · split at h <;> (cases h; rfl)
    · cases h; rfl

theorem readInstr_pc {s s₁ : VmState} {b : Bool} (h : s.readInstr b = .ok s₁) :
    s₁.pc = s.pc := by
  unfold readInstr at h
  cases h1 : s.fillInputBuffer with
  | error e => rw [h1] at h; cases h
  | ok s' =>
    rw [h1] at h
    dsimp only at h
    cases h2 : s'.inputBuffer with
    | nil => rw [h2] at h; cases h
    | cons tok rest =>
      rw [h2] at h
      dsimp only at h
      by_cases hb : b = true
      · rw [if_pos hb] at h
        cases hp : parseI64 tok with
        | none => rw [hp] at h; cases h
        | some q =>
          rw [hp] at h; cases h
          show s'.pc = s.pc
          exact fillInputBuffer_pc h1
      · rw [if_neg hb] at h
        cases hp : parseU64 tok with
        | none => rw [hp] at h; cases h
        | some q =>
          rw [hp] at h; cases h
          show s'.pc = s.pc
          exact fillInputBuffer_pc h1

theorem jump_ok {s s₁ : VmState} (h : s.jump = .ok s₁) :
    ∃ v st, s.stack = v :: st ∧
      s₁ = { s with stack := st, pc := (s.pc + v) % U64MOD } := by
  unfold jump at h
  cases h1 : s.popStack with
  | error e => rw [h1] at h; cases h
  | ok p =>
    obtain ⟨v, s'⟩ := p
    rw [h1] at h
    simp only [bind, Except.bind, pure, Except.pure] at h
    cases h
    refine ⟨v, s'.stack, popStack_stack h1, ?_⟩
    have hpc := popStack_pc h1
    unfold popStack at h1
    cases hs : s.stack with
    | nil => rw [hs] at h1; cases h1
    | cons a rest => rw [hs] at h1; cases h1; rfl

theorem jcond_ok {s s₁ : VmState} (h : s.jcond = .ok s₁) :
    ∃ v b st, s.stack = v :: b :: st ∧
      s₁ = if b % U64MOD ≠ 0 then { s with stack := st, pc := (s.pc + v) % U64MOD }
           else { s with stack := st } := by
  unfold jcond popStack at h
  cases hs : s.stack with
  | nil => rw [hs] at h; cases h
  | cons v rest =>
    rw [hs] at h
    simp only [bind, Except.bind] at h
    cases hr : rest with
    | nil => rw [hr] at h; cases h
    | cons b st =>
      rw [hr] at h
      dsimp only at h
      refine ⟨v, b, st, rfl, ?_⟩
      split at h <;>
        (simp only [pure, Except.pure] at h
         cases h
         simp_all)

end VmState


/-- Success of the `lift`ed (`Result`-returning) instruction helpers:
the advance is as computed and the helper preserved the PC. -/
theorem lift_case {s s₁ : VmState} {adv advA : Nat} {X : Except ErrorKind VmState}
    (h : (match X with
          | .error e => RustResult.err e
          | .ok s' => RustResult.ok (s', advA)) = RustResult.ok (s₁, adv))
    (hpc : ∀ s', X = .ok s' → s'.pc = s.pc) :
    adv = advA ∧ s₁.pc = s.pc := by
  cases hX : X with
  | error e => rw [hX] at h; cases h
  | ok s' => rw [hX] at h; cases h; exact ⟨rfl, hpc _ hX⟩

theorem executeInstruction_cases (s : VmState) (i : Instruction) (s₁ : VmState) (adv : Nat)
    (h : executeInstruction s i = .ok (s₁, adv)) :
    (i.opcode = .Halt → adv = 0 ∧ s₁ = s) ∧
    (i.opcode = .Jump → adv = 1 ∧ ∃ v st, s.stack = v :: st ∧
        s₁ = { s with stack := st, pc := (s.pc + v) % U64MOD }) ∧
    (i.opcode = .JCond → adv = 1 ∧ ∃ v b st, s.stack = v :: b :: st ∧
        s₁ = if b % U64MOD ≠ 0 then { s with stack := st, pc := (s.pc + v) % U64MOD }
             else { s with stack := st }) ∧
    (i.opcode ≠ .Halt → i.opcode ≠ .Jump → i.opcode ≠ .JCond →
      adv = 1 + i.opcode.literalLen ∧ s₁.pc = s.pc) := by
  obtain ⟨op, lit⟩ := i
  dsimp only at h ⊢
  cases op
  case Halt =>
    dsimp only [executeInstruction] at h
    cases h
    exact ⟨fun _ => ⟨rfl, rfl⟩, fun hh => Opcode.noConfusion hh, fun hh => Opcode.noConfusion hh,
      fun hh _ _ => absurd rfl hh⟩
  case Jump =>
    dsimp only [executeInstruction] at h
    cases hv : s.jump with
    | error e => rw [hv] at h; cases h
    | ok s' =>
      rw [hv] at h; cases h
      exact ⟨fun hh => Opcode.noConfusion hh, fun _ => ⟨rfl, VmState.jump_ok hv⟩, fun hh => Opcode.noConfusion hh,
        fun _ hh _ => absurd rfl hh⟩
  case JCond =>
    dsimp only [executeInstruction] at h
    cases hv : s.jcond with
    | error e => rw [hv] at h; cases h
    | ok s' =>
      rw [hv] at h; cases h
      exact ⟨fun hh => Opcode.noConfusion hh, fun hh => Opcode.noConfusion hh, fun _ => ⟨rfl, VmState.jcond_ok hv⟩,
        fun _ _ hh => absurd rfl hh⟩
  case Read =>
    dsimp only [executeInstruction] at h
    cases hv : s.readInstr false with
    | ok s' =>
      rw [hv] at h; cases h
      exact ⟨fun hh => Opcode.noConfusion hh, fun hh => Opcode.noConfusion hh, fun hh => Opcode.noConfusion hh,
        fun _ _ _ => ⟨rfl, VmState.readInstr_pc hv⟩⟩
    | err e => rw [hv] at h; cases h
    | panics => rw [hv] at h; cases h
  case ReadS =>
    dsimp only [executeInstruction] at h
    cases hv : s.readInstr true with
    | ok s' =>
      rw [hv] at h; cases h
      exact ⟨fun hh => Opcode.noConfusion hh, fun hh => Opcode.noConfusion hh, fun hh => Opcode.noConfusion hh,
        fun _ _ _ => ⟨rfl, VmState.readInstr_pc hv⟩⟩
    | err e => rw [hv] at h; cases h
    | panics => rw [hv] at h; cases h
  all_goals
    dsimp only [executeInstruction] at h
    refine ⟨fun hh => Opcode.noConfusion hh, fun hh => Opcode.noConfusion hh, fun hh => Opcode.noConfusion hh,
      fun _ _ _ => ?_⟩
    first
    | (cases h; exact ⟨rfl, rfl⟩)
    | exact lift_case h (fun s' hv => VmState.varst_pc hv)
    | exact lift_case h (fun s' hv => VmState.varld_pc hv)
    | exact lift_case h (fun s' hv => VmState.varres_pc hv)
    | exact lift_case h (fun s' hv => VmState.vardisc_pc hv)
    | exact lift_case h (fun s' hv => VmState.dupn_pc hv)
    | exact lift_case h (fun s' hv => VmState.popInstr_pc hv)
    | exact lift_case h (fun s' hv => VmState.swap_pc hv)
    | exact lift_case h (fun s' hv => VmState.binopInfallible_pc hv)
    | exact lift_case h (fun s' hv => VmState.binopFallible_pc hv)
    | exact lift_case h (fun s' hv => VmState.unop_pc hv)
    | exact lift_case h (fun s' hv => VmState.printInstr_pc hv)



theorem runLoop_succ (fuel : Nat) (s : VmState) :
    runLoop (fuel + 1) s = (match vmStep s with
      | .done s' => RunRes.ok (mkSummary s')
      | .next s' => runLoop fuel s'
      | .fail e => RunRes.fail e
      | .panicked => RunRes.panicked) := rfl

theorem runLoop_done {s s' : VmState} (h : vmStep s = .done s') (fuel : Nat) :
    runLoop (fuel + 1) s = .ok (mkSummary s') := by
  rw [runLoop_succ, h]

theorem runLoop_next {s s' : VmState} (h : vmStep s = .next s') (fuel : Nat) :
    runLoop (fuel + 1) s = runLoop fuel s' := by
  rw [runLoop_succ, h]

theorem vmStep_done_of_pc_ge (s : VmState) (h : ¬ s.pc < s.program.length) :
    vmStep s = .done s := by
  unfold vmStep; rw [if_neg h]

theorem jump_exec {s : VmState} {v : Nat} {st : List Nat} (hstack : s.stack = v :: st) :
    s.jump = .ok { s with stack := st, pc := (s.pc + v) % U64MOD } := by
  unfold VmState.jump VmState.popStack
  rw [hstack]
  rfl

theorem jcond_exec {s : VmState} {v b : Nat} {st : List Nat}
    (hstack : s.stack = v :: b :: st) (hb : b % U64MOD ≠ 0) :
    s.jcond = .ok { s with stack := st, pc := (s.pc + v) % U64MOD } := by
  have h : s.jcond = (if b % U64MOD ≠ 0
      then Except.ok { s with stack := st, pc := (s.pc + v) % U64MOD }
      else Except.ok { s with stack := st }) := by
    unfold VmState.jcond VmState.popStack
    rw [hstack]
    rfl
  rw [h, if_pos hb]


/-! ## Codegen/typechecker correspondence lemmas -/


/-- The names bound in a typing context, in push order. -/
def varNames (ctx : TypingContext) : List String := ctx.map Prod.fst

theorem rposition_isSome_iff {xs : List String} {v : String} :
    (rposition xs v).isSome ↔ v ∈ xs := by
  induction xs with
  | nil => simp [rposition]
  | cons x rest ih =>
    cases h : rposition rest v with
    | some i => simp [rposition, h, List.mem_cons]; right; rw [← ih, h]; rfl
    | none =>
      by_cases hx : x = v
      · simp [rposition, h, hx, List.mem_cons]
      · simp only [rposition, h, hx, if_false, List.mem_cons]
        simp only [Option.isSome_none, Bool.false_eq_true, false_iff]
        push_neg
        refine ⟨fun he => hx he.symm, fun hmem => ?_⟩
        have hs := ih.mpr hmem
        rw [h] at hs
        cases hs

theorem lookupTy_isSome_iff {ctx : TypingContext} {v : String} :
    (lookupTy ctx v).isSome ↔ v ∈ varNames ctx := by
  unfold lookupTy varNames
  cases hf : List.find? (fun p => p.1 = v) ctx.reverse with
  | none =>
    have hnone := List.find?_eq_none.mp hf
    simp only [hf, Option.map_none', Option.isSome_none, Bool.false_eq_true, false_iff]
    intro hmem
    obtain ⟨p, hp, he⟩ := List.mem_map.mp hmem
    have := hnone p (List.mem_reverse.mpr hp)
    simp [he] at this
  | some p =>
    have hmem := List.mem_of_find?_eq_some hf
    have hp : p.1 = v := by simpa using List.find?_some hf
    simp only [hf, Option.map_some', Option.isSome_some, true_iff]
    exact hp ▸ List.mem_map_of_mem Prod.fst (List.mem_reverse.mp hmem)

theorem lookupTy_some_mem {ctx : TypingContext} {v : String} {ty : Ty}
    (h : lookupTy ctx v = some ty) : v ∈ varNames ctx :=
  lookupTy_isSome_iff.mp (by rw [h]; rfl)

theorem lookupTy_none_not_mem {ctx : TypingContext} {v : String}
    (h : lookupTy ctx v = none) : v ∉ varNames ctx := by
  intro hmem
  have := lookupTy_isSome_iff.mpr hmem
  rw [h] at this
  cases this

theorem rposition_some_of_mem {xs : List String} {v : String} (h : v ∈ xs) :
    ∃ i, rposition xs v = some i := by
  have := rposition_isSome_iff.mpr h
  cases hr : rposition xs v with
  | none => rw [hr] at this; cases this
  | some i => exact ⟨i, rfl⟩

theorem rposition_none_of_not_mem {xs : List String} {v : String} (h : v ∉ xs) :
    rposition xs v = none := by
  cases hr : rposition xs v with
  | none => rfl
  | some i => exact absurd (rposition_isSome_iff.mp (by rw [hr]; rfl)) h



mutual

theorem translateOne_names (ast : Ast) :
    ∀ (tctx : TypingContext) (ty : Ty) (tctx' : TypingContext) (cctx : CgContext),
      typecheckOne tctx ast = .ok (ty, tctx') →
      cctx.vars = varNames tctx →
      ∃ cctx' instrs, translateOne cctx ast = .ok (cctx', instrs) ∧
        cctx'.vars = varNames tctx' := by
  intro tctx ty tctx' cctx h hvars
  cases ast with
  | block seq =>
    unfold typecheckOne at h
    cases hs : typecheckSeq tctx seq with
    | error e => rw [hs] at h; cases h
    | ok p =>
      obtain ⟨ty0, tctxInner⟩ := p
      rw [hs] at h
      dsimp only at h
      cases h
      obtain ⟨cctxInner, instrs, htr, _⟩ :=
        translateSeq_names seq tctx _ _ cctx hs hvars
      refine ⟨cctx.exitScope cctxInner, instrs, ?_, hvars⟩
      unfold translateOne
      rw [htr]
  | var v =>
    unfold typecheckOne at h
    cases hl : lookupTy tctx v with
    | none => rw [hl] at h; cases h
    | some ty0 =>
      rw [hl] at h
      dsimp only at h
      cases h
      have hmem : v ∈ cctx.vars := by rw [hvars]; exact lookupTy_some_mem hl
      obtain ⟨i, hi⟩ := rposition_some_of_mem hmem
      refine ⟨cctx, [Instruction.optimalPush i, Instruction.fromOpcode .VarLd], ?_, hvars⟩
      unfold translateOne CgContext.indexOf
      rw [hi]
  | int val =>
    unfold typecheckOne at h
    cases h
    exact ⟨cctx, [Instruction.optimalPush val], rfl, hvars⟩
  | boolean val =>
    unfold typecheckOne at h
    cases h
    exact ⟨cctx, [Instruction.optimalPush (if val then 1 else 0)], rfl, hvars⟩
  | assign v value =>
    unfold typecheckOne at h
    cases ht : typecheckOne tctx value with
    | error e => rw [ht] at h; cases h
    | ok p =>
      obtain ⟨tyv, tctx₁⟩ := p
      rw [ht] at h
      dsimp only at h
      split at h
      · cases h
      · cases hb : bindTy tctx₁ v tyv with
        | error e => rw [hb] at h; cases h
        | ok tctx₂ =>
          rw [hb] at h
          dsimp only at h
          cases h
          obtain ⟨cctx₁, vi, htr, hnames₁⟩ :=
            translateOne_names value tctx _ _ cctx ht hvars
          unfold bindTy at hb
          cases hlv : lookupTy tctx₁ v with
          | some oldTy =>
            rw [hlv] at hb
            dsimp only at hb
            split at hb
            · cases hb
              have hmem : v ∈ cctx₁.vars := by
                rw [hnames₁]; exact lookupTy_some_mem hlv
              obtain ⟨i, hi⟩ := rposition_some_of_mem hmem
              refine ⟨cctx₁, vi ++ [Instruction.optimalPush i, Instruction.fromOpcode .VarSt],
                ?_, hnames₁⟩
              unfold translateOne
              rw [htr]
              dsimp only
              unfold CgContext.assignVar CgContext.indexOf
              rw [hi]
            · cases hb
          | none =>
            rw [hlv] at hb
            dsimp only at hb
            cases hb
            have hnot : v ∉ cctx₁.vars := by
              rw [hnames₁]; exact lookupTy_none_not_mem hlv
            have hi := rposition_none_of_not_mem hnot
            refine ⟨⟨cctx₁.vars ++ [v], max cctx₁.maxVars (cctx₁.vars.length + 1)⟩,
              vi ++ [Instruction.optimalPush cctx₁.vars.length,
                Instruction.fromOpcode .VarSt], ?_, ?_⟩
            · unfold translateOne
              rw [htr]
              dsimp only
              unfold CgContext.assignVar CgContext.indexOf
              rw [hi]
            · show cctx₁.vars ++ [v] = varNames (tctx₁ ++ [(v, tyv)])
              rw [hnames₁]
              simp [varNames]
  | ifCond cond body elseBody =>
    unfold typecheckOne at h
    cases hc : typecheckOne tctx cond with
    | error e => rw [hc] at h; cases h
    | ok p =>
      obtain ⟨condTy, tctx₁⟩ := p
      rw [hc] at h
      dsimp only at h
      split at h
      · cases h
      · cases hbod : typecheckSeq tctx₁ body with
        | error e => rw [hbod] at h; cases h
        | ok pb =>
          obtain ⟨bodyTy, tctxB⟩ := pb
          rw [hbod] at h
          dsimp only at h
          obtain ⟨cctx₁, condI, htrc, hnames₁⟩ :=
            translateOne_names cond tctx _ _ cctx hc hvars
          obtain ⟨innerIf, bodyI, htrb, _⟩ :=
            translateSeq_names body tctx₁ _ _ cctx₁ hbod hnames₁
          have hvars₂ : (cctx₁.exitScope innerIf).vars = varNames tctx₁ := hnames₁
          cases helse : elseBody with
          | nil =>
            rw [helse] at h
            simp only [List.isEmpty_nil, if_true] at h
            split at h
            · cases h
              have htr : ∃ out, translateOne cctx (Ast.ifCond cond body [])
                  = .ok ((cctx₁.exitScope innerIf).exitScope (cctx₁.exitScope innerIf), out) := by
                unfold translateOne
                rw [htrc]
                dsimp only
                rw [htrb]
                dsimp only
                rw [show translateSeq (cctx₁.exitScope innerIf) ([] : List Ast)
                    = .ok (cctx₁.exitScope innerIf, []) from rfl]
                exact ⟨_, rfl⟩
              obtain ⟨out, htr⟩ := htr
              exact ⟨_, out, htr, hvars₂⟩
            · cases h
          | cons e0 erest =>
            rw [helse] at h
            simp only [List.isEmpty_cons, Bool.false_eq_true, if_false] at h
            cases hels : typecheckSeq tctx₁ (e0 :: erest) with
            | error e => rw [hels] at h; cases h
            | ok pe =>
              obtain ⟨elseTy, tctxE⟩ := pe
              rw [hels] at h
              dsimp only at h
              split at h
              · cases h
                obtain ⟨innerElse, elseI, htre, _⟩ :=
                  translateSeq_names (e0 :: erest) _ _ _
                    (cctx₁.exitScope innerIf) hels hvars₂
                have htr : ∃ out, translateOne cctx (Ast.ifCond cond body (e0 :: erest))
                    = .ok ((cctx₁.exitScope innerIf).exitScope innerElse, out) := by
                  unfold translateOne
                  rw [htrc]
                  dsimp only
                  rw [htrb]
                  dsimp only
                  rw [htre]
                  exact ⟨_, rfl⟩
                obtain ⟨out, htr⟩ := htr
                exact ⟨_, out, htr, hvars₂⟩
              · cases h
  | binop sym lhs rhs =>
    unfold typecheckOne at h
    cases hl : typecheckOne tctx lhs with
    | error e => rw [hl] at h; cases h
    | ok p =>
      obtain ⟨lhsTy, tctx₁⟩ := p
      rw [hl] at h
      dsimp only at h
      split at h
      · cases h
      · cases hr : typecheckOne tctx₁ rhs with
        | error e => rw [hr] at h; cases h
        | ok q =>
          obtain ⟨rhsTy, tctx₂⟩ := q
          rw [hr] at h
          dsimp only at h
          split at h
          · cases h
          · cases h
            obtain ⟨cctx₁, li, htrl, hn₁⟩ :=
              translateOne_names lhs tctx _ _ cctx hl hvars
            obtain ⟨cctx₂, ri, htrr, hn₂⟩ :=
              translateOne_names rhs tctx₁ _ _ cctx₁ hr hn₁
            refine ⟨cctx₂, li ++ ri ++ binopInstrs sym, ?_, hn₂⟩
            unfold translateOne
            rw [htrl]
            dsimp only
            rw [htrr]
  | unop sym operand =>
    unfold typecheckOne at h
    cases ho : typecheckOne tctx operand with
    | error e => rw [ho] at h; cases h
    | ok p =>
      obtain ⟨foundTy, tctx₁⟩ := p
      rw [ho] at h
      dsimp only at h
      split at h
      · cases h
      · cases h
        obtain ⟨cctx₁, oi, htro, hn₁⟩ :=
          translateOne_names operand tctx _ _ cctx ho hvars
        refine ⟨cctx₁, oi ++ unopInstrs sym, ?_, hn₁⟩
        unfold translateOne
        rw [htro]
  | print value =>
    unfold typecheckOne at h
    cases hv : typecheckOne tctx value with
    | error e => rw [hv] at h; cases h
    | ok p =>
      obtain ⟨valTy, tctx₁⟩ := p
      rw [hv] at h
      dsimp only at h
      split at h
      · cases h
        obtain ⟨cctx₁, vi, htrv, hn₁⟩ :=
          translateOne_names value tctx _ _ cctx hv hvars
        refine ⟨cctx₁, vi ++ [Instruction.fromOpcode .Print], ?_, hn₁⟩
        unfold translateOne
        rw [htrv]
      · cases h

theorem translateSeq_names (seq : List Ast) :
    ∀ (tctx : TypingContext) (ty : Ty) (tctx' : TypingContext) (cctx : CgContext),
      typecheckSeq tctx seq = .ok (ty, tctx') →
      cctx.vars = varNames tctx →
      ∃ cctx' instrs, translateSeq cctx seq = .ok (cctx', instrs) ∧
        cctx'.vars = varNames tctx' := by
  intro tctx ty tctx' cctx h hvars
  cases seq with
  | nil =>
    unfold typecheckSeq at h
    cases h
    exact ⟨cctx, [], rfl, hvars⟩
  | cons ast rest =>
    unfold typecheckSeq at h
    cases h1 : typecheckOne tctx ast with
    | error e => rw [h1] at h; cases h
    | ok p =>
      obtain ⟨ty1, tctx₁⟩ := p
      rw [h1] at h
      dsimp only at h
      obtain ⟨cctx₁, i1, htr1, hn₁⟩ :=
        translateOne_names ast tctx _ _ cctx h1 hvars
      cases hrest : rest with
      | nil =>
        rw [hrest] at h
        dsimp only at h
        cases h
        refine ⟨cctx₁, i1 ++ [], ?_, hn₁⟩
        unfold translateSeq
        rw [htr1]
        dsimp only
        rw [show translateSeq cctx₁ ([] : List Ast) = .ok (cctx₁, []) from rfl]
      | cons r0 rrest =>
        rw [hrest] at h
        dsimp only at h
        split at h
        · cases h
        · obtain ⟨cctx₂, i2, htr2, hn₂⟩ :=
            translateSeq_names (r0 :: rrest) tctx₁ _ _ cctx₁ h hn₁
          refine ⟨cctx₂, i1 ++ i2, ?_, hn₂⟩
          unfold translateSeq
          rw [htr1]
          dsimp only
          rw [htr2]

end


/-! ## Claim theorems -/

/-- C3, counterexample: the live `Opcode` enumeration has 45 distinct
operations (`Opcode.all` lists 45 pairwise-distinct elements), not 44 as
the claim states. -/
theorem opcode_count_is_45_not_44 :
    Opcode.all.Nodup ∧ Opcode.all.length = 45 :=
  ⟨by decide, by rfl⟩

/-- C3, amended: the `Opcode` enumeration used by the live compiler and VM
consists of exactly 45 distinct operations (`Opcode.all` is an exhaustive
duplicate-free enumeration), and each is assigned a unique byte tag
(`toByte` is injective on it, with `fromU8` recovering the opcode). -/
theorem opcode_enum_unique_tags :
    Opcode.all.length = 45 ∧ Opcode.all.Nodup ∧
    (Opcode.all.map Opcode.toByte).Nodup ∧
    (∀ o : Opcode, o ∈ Opcode.all) ∧
    (∀ o : Opcode, Opcode.fromU8 o.toByte = some o) := by
  refine ⟨by rfl, by decide, by decide, ?_, ?_⟩ <;> intro o <;> cases o <;> decide

/-- C2, counterexample: `div_signed` of the bit pattern of `i64::MIN`
(`2^63`) by the bit pattern of `-1` (`2^64 - 1`) returns the runtime error
`DivideByZero` even though the divisor is not zero — it does not wrap to
`i64::MIN` (Rust's `i64::checked_div` signals the `MIN / -1` overflow with
`None`, which the code maps to `DivideByZero`). -/
theorem div_signed_min_by_neg_one_errors :
    Value.div_signed I64HALF (U64MOD - 1) = .error .DivideByZero ∧
    toSigned64 I64HALF = -(I64HALF : Int) ∧
    toSigned64 (U64MOD - 1) = -1 := by
  refine ⟨by rfl, by decide, by decide⟩

/-- C2, amended: `div_unsigned` and `mod_` compute 64-bit unsigned
division/remainder and return the error `DivideByZero` exactly when the
divisor is zero; `div_signed` computes signed division truncating toward
zero and returns `DivideByZero` when the divisor is zero *or* when the
dividend is `i64::MIN` and the divisor is `-1` (the one case where wrapping
division would differ — the code errors instead of wrapping). -/
theorem div_ops_zero_divisor :
    ∀ a b : Nat, a < U64MOD → b < U64MOD →
      (Value.div_unsigned a b = if b = 0 then .error .DivideByZero else .ok (a / b)) ∧
      (Value.mod_ a b = if b = 0 then .error .DivideByZero else .ok (a % b)) ∧
      (Value.div_signed a b =
        if toSigned64 b = 0 ∨ (toSigned64 a = -(I64HALF : Int) ∧ toSigned64 b = -1)
        then .error .DivideByZero
        else .ok (ofSigned64 ((toSigned64 a).tdiv (toSigned64 b)))) := by
  intro a b ha hb
  refine ⟨?_, ?_, ?_⟩
  · by_cases h : b = 0 <;>
      simp [Value.div_unsigned, Value.checkedDivU64, Nat.mod_eq_of_lt ha,
        Nat.mod_eq_of_lt hb, h]
  · by_cases h : b = 0 <;>
      simp [Value.mod_, Value.checkedRemU64, Nat.mod_eq_of_lt ha,
        Nat.mod_eq_of_lt hb, h]
  · by_cases h : toSigned64 b = 0 ∨ (toSigned64 a = -(I64HALF : Int) ∧ toSigned64 b = -1) <;>
      simp [Value.div_signed, Value.checkedDivI64, h]

/-- C2, witness: the amended statement evaluated at `7 / 0` (divisor zero)
and `-20 / 5` (ordinary signed division). -/
theorem div_ops_zero_divisor_witness :
    (Value.div_unsigned 7 0 = if (0 : Nat) = 0 then .error .DivideByZero else .ok (7 / 0)) ∧
    (Value.div_signed (ofSigned64 (-20)) 5 =
      if toSigned64 5 = 0 ∨
          (toSigned64 (ofSigned64 (-20)) = -(I64HALF : Int) ∧ toSigned64 5 = -1)
      then .error .DivideByZero
      else .ok (ofSigned64 ((toSigned64 (ofSigned64 (-20))).tdiv (toSigned64 5)))) :=
  ⟨(div_ops_zero_divisor 7 0 (by decide) (by decide)).1,
   (div_ops_zero_divisor (ofSigned64 (-20)) 5 (by decide) (by decide)).2.2⟩

/-- C1: executing `Read` with a configured input stream draws a line and
splits it on whitespace (the successful conjunct), but on end-of-file with
an empty token buffer the code *panics* (`input_buffer.pop().unwrap()` on
an empty buffer) instead of failing with `InputError`, and a blank line
likewise panics on the current read instead of leaving the buffer empty
for a retry: `fill_input_buffer` reads at most one line per `read`. -/
theorem read_eof_panics_instead_of_input_error :
    (VmState.readInstr (VmState.init [Opcode.toByte .Read] (some []) true) false
      = .panics) ∧
    (VmState.readInstr (VmState.init [Opcode.toByte .Read] (some ["  ", "42"]) true) false
      = .panics) ∧
    runLoop 1 (VmState.init [Opcode.toByte .Read] (some []) true) = .panicked ∧
    (∃ s', VmState.readInstr (VmState.init [Opcode.toByte .Read] (some ["42 7"]) true) false
        = .ok s' ∧ s'.stack = [42] ∧ s'.inputBuffer = ["7"]) :=
  ⟨by rfl, by rfl, by rfl, ⟨_, by rfl, by rfl, by rfl⟩⟩

/-- C7: for every instruction, decoding the bytes produced by encoding it
yields the instruction with its literal canonicalized (zero for zero-width
opcodes, truncated to the literal width and re-widened under the opcode's
sign rule otherwise), consuming the whole encoding; in particular, when the
literal is already canonical, `decode (encode i) = i`. -/
theorem decode_encode_roundtrip :
    ∀ i : Instruction,
      Instruction.decode (Instruction.encode i) = .ok (Instruction.canonicalize i, []) ∧
      (Instruction.canonicalize i = i →
        Instruction.decode (Instruction.encode i) = .ok (i, [])) := by
  have main : ∀ i : Instruction,
      Instruction.decode (Instruction.encode i) = .ok (Instruction.canonicalize i, []) := by
    rintro ⟨op, lit⟩
    cases op <;>
      first
      | rfl
      | (rw [decode_encode_push _ lit (by decide) (by decide)]
         simp [Instruction.canonicalize, Opcode.literalLen])
  intro i
  exact ⟨main i, fun h => by rw [main i, h]⟩

/-- C7, witness: the canonical-literal direction evaluated at
`Push16 0x2345`. -/
theorem decode_encode_roundtrip_witness :
    Instruction.decode (Instruction.encode ⟨.Push16, 0x2345⟩) = .ok (⟨.Push16, 0x2345⟩, []) :=
  (decode_encode_roundtrip ⟨.Push16, 0x2345⟩).2 (by rfl)

/-- C8: `optimal_push` returns an unsigned push whose stored literal is the
value itself, round-trips through canonicalization (so its decoded literal
equals the value), lies within the chosen opcode's unsigned range, and has
the smallest literal width among the unsigned pushes whose range contains
the value; `optimal_pushs` analogously for the signed pushes, falling back
to `Push64` with the bit-identical representation (`v as u64`) when the
value is outside the `i32` range. -/
theorem optimal_push_selection :
    (∀ v : Nat, v < U64MOD →
      (Instruction.optimalPush v).opcode ∈ ([.Push8, .Push16, .Push32, .Push64] : List Opcode) ∧
      (Instruction.optimalPush v).literal = v ∧
      Instruction.canonicalize (Instruction.optimalPush v) = Instruction.optimalPush v ∧
      v ≤ unsignedPushMax (Instruction.optimalPush v).opcode ∧
      (∀ op : Opcode, op ∈ ([.Push8, .Push16, .Push32, .Push64] : List Opcode) →
        v ≤ unsignedPushMax op →
        (Instruction.optimalPush v).opcode.literalLen ≤ op.literalLen)) ∧
    (∀ v : Int, -(I64HALF : Int) ≤ v → v < (I64HALF : Int) →
      (Instruction.optimalPushS v).literal = ofSigned64 v ∧
      toSigned64 (Instruction.optimalPushS v).literal = v ∧
      Instruction.canonicalize (Instruction.optimalPushS v) = Instruction.optimalPushS v ∧
      ((-2147483648 ≤ v ∧ v ≤ 2147483647) →
        (Instruction.optimalPushS v).opcode ∈ ([.Push8S, .Push16S, .Push32S] : List Opcode) ∧
        signedPushMin (Instruction.optimalPushS v).opcode ≤ v ∧
        v ≤ signedPushMax (Instruction.optimalPushS v).opcode ∧
        (∀ op : Opcode, op ∈ ([.Push8S, .Push16S, .Push32S] : List Opcode) →
          signedPushMin op ≤ v → v ≤ signedPushMax op →
          (Instruction.optimalPushS v).opcode.literalLen ≤ op.literalLen)) ∧
      (¬(-2147483648 ≤ v ∧ v ≤ 2147483647) → (Instruction.optimalPushS v).opcode = .Push64)) := by
  constructor
  · intro v hv
    by_cases h1 : v ≤ 255
    · simp only [Instruction.optimalPush, h1, if_pos]
      refine ⟨by decide, by trivial, ?_, by simpa [unsignedPushMax], ?_⟩
      · simp only [Instruction.canonicalize, Opcode.literalLen, Instruction.widenLiteral]
        norm_num
        omega
      · intro op hmem _
        simp only [List.mem_cons, List.not_mem_nil, or_false] at hmem
        rcases hmem with rfl | rfl | rfl | rfl <;> decide
    · by_cases h2 : v ≤ 65535
      · simp only [Instruction.optimalPush, h1, h2, if_neg, if_pos, if_false]
        refine ⟨by decide, by trivial, ?_, by simpa [unsignedPushMax], ?_⟩
        · simp only [Instruction.canonicalize, Opcode.literalLen, Instruction.widenLiteral]
          norm_num
          omega
        · intro op hmem hle
          simp only [List.mem_cons, List.not_mem_nil, or_false] at hmem
          rcases hmem with rfl | rfl | rfl | rfl <;>
            simp only [unsignedPushMax, Opcode.literalLen] at * <;> omega
      · by_cases h3 : v ≤ 4294967295
        · simp only [Instruction.optimalPush, h1, h2, h3, if_neg, if_pos, if_false]
          refine ⟨by decide, by trivial, ?_, by simpa [unsignedPushMax], ?_⟩
          · simp only [Instruction.canonicalize, Opcode.literalLen, Instruction.widenLiteral]
            norm_num
            omega
          · intro op hmem hle
            simp only [List.mem_cons, List.not_mem_nil, or_false] at hmem
            rcases hmem with rfl | rfl | rfl | rfl <;>
              simp only [unsignedPushMax, Opcode.literalLen] at * <;> omega
        · simp only [Instruction.optimalPush, h1, h2, h3, if_neg, if_false]
          refine ⟨by decide, by trivial, ?_, ?_, ?_⟩
          · simp only [Instruction.canonicalize, Opcode.literalLen, Instruction.widenLiteral]
            norm_num
            simp only [U64MOD] at hv
            omega
          · simp only [unsignedPushMax, U64MOD] at *; omega
          · intro op hmem hle
            simp only [List.mem_cons, List.not_mem_nil, or_false] at hmem
            rcases hmem with rfl | rfl | rfl | rfl <;>
              simp only [unsignedPushMax, Opcode.literalLen, U64MOD] at * <;> omega
  · intro v hlo hhi
    by_cases h1 : -128 ≤ v ∧ v ≤ 127
    · simp only [Instruction.optimalPushS, h1.1, h1.2, and_self, if_true, ite_true]
      have hc : Instruction.canonicalize ⟨Opcode.Push8S, ofSigned64 v⟩
          = ⟨Opcode.Push8S, ofSigned64 v⟩ := by
        simp only [Instruction.canonicalize, Opcode.literalLen, Instruction.widenLiteral]
        norm_num
        exact signExtend1_ofSigned64 v h1.1 h1.2
      refine ⟨by trivial, toSigned64_ofSigned64 v hlo hhi, hc, ?_, ?_⟩
      · intro _
        refine ⟨by decide, by simpa [signedPushMin] using h1.1,
          by simpa [signedPushMax] using h1.2, ?_⟩
        intro op hmem _ _
        simp only [List.mem_cons, List.not_mem_nil, or_false] at hmem
        rcases hmem with rfl | rfl | rfl <;> decide
      · intro hcon
        exact absurd ⟨by omega, by omega⟩ hcon
    · by_cases h2 : -32768 ≤ v ∧ v ≤ 32767
      · simp only [Instruction.optimalPushS, h1, h2.1, h2.2, and_self, if_false, ite_false,
          if_true, ite_true]
        have hc : Instruction.canonicalize ⟨Opcode.Push16S, ofSigned64 v⟩
            = ⟨Opcode.Push16S, ofSigned64 v⟩ := by
          simp only [Instruction.canonicalize, Opcode.literalLen, Instruction.widenLiteral]
          norm_num
          exact signExtend2_ofSigned64 v h2.1 h2.2
        refine ⟨by trivial, toSigned64_ofSigned64 v hlo hhi, hc, ?_, ?_⟩
        · intro _
          refine ⟨by decide, by simpa [signedPushMin] using h2.1,
            by simpa [signedPushMax] using h2.2, ?_⟩
          intro op hmem hmin hmax
          simp only [List.mem_cons, List.not_mem_nil, or_false] at hmem
          rcases hmem with rfl | rfl | rfl <;>
            simp only [signedPushMin, signedPushMax, Opcode.literalLen] at * <;> omega
        · intro hcon
          exact absurd ⟨by omega, by omega⟩ hcon
      · by_cases h3 : -2147483648 ≤ v ∧ v ≤ 2147483647
        · simp only [Instruction.optimalPushS, h1, h2, h3.1, h3.2, and_self, if_false, ite_false,
            if_true, ite_true]
          have hc : Instruction.canonicalize ⟨Opcode.Push32S, ofSigned64 v⟩
              = ⟨Opcode.Push32S, ofSigned64 v⟩ := by
            simp only [Instruction.canonicalize, Opcode.literalLen, Instruction.widenLiteral]
            norm_num
            exact signExtend4_ofSigned64 v h3.1 h3.2
          refine ⟨by trivial, toSigned64_ofSigned64 v hlo hhi, hc, ?_, ?_⟩
          · intro _
            refine ⟨by decide, by simpa [signedPushMin] using h3.1,
              by simpa [signedPushMax] using h3.2, ?_⟩
            intro op hmem hmin hmax
            simp only [List.mem_cons, List.not_mem_nil, or_false] at hmem
            rcases hmem with rfl | rfl | rfl <;>
              simp only [signedPushMin, signedPushMax, Opcode.literalLen] at * <;> omega
          · intro hcon
            exact absurd trivial hcon
        · simp only [Instruction.optimalPushS, h1, h2, h3, if_false, ite_false]
          have hc : Instruction.canonicalize ⟨Opcode.Push64, ofSigned64 v⟩
              = ⟨Opcode.Push64, ofSigned64 v⟩ := by
            simp only [Instruction.canonicalize, Opcode.literalLen, Instruction.widenLiteral]
            norm_num
            have := ofSigned64_lt v
            simp only [U64MOD] at this ⊢
            omega
          refine ⟨by trivial, toSigned64_ofSigned64 v hlo hhi, hc, ?_, fun _ => by trivial⟩
          intro hcon
          exact hcon.elim

/-- C8, witness: evaluated at 300 (fits `Push16`, not `Push8`) and at −5
(fits `Push8S`). -/
theorem optimal_push_selection_witness :
    (Instruction.optimalPush 300).literal = 300 ∧
    Instruction.canonicalize (Instruction.optimalPush 300) = Instruction.optimalPush 300 ∧
    toSigned64 (Instruction.optimalPushS (-5)).literal = -5 := by
  have h1 := (optimal_push_selection.1 300 (by decide))
  have h2 := (optimal_push_selection.2 (-5) (by decide) (by decide))
  exact ⟨h1.2.1, h1.2.2.1, h2.2.1⟩

/-- C9: decoding widens a narrow literal to 64 bits by zero-extension for
the unsigned push opcodes and by two's-complement sign-extension for the
signed push opcodes; in particular, `Push8S` with literal −1 (cell
`0xFFFFFFFFFFFFFFFF`) encodes as the byte `0xFF` and that byte decodes back
to the all-ones 64-bit cell. -/
theorem decode_widening_sign_rules :
    (∀ (op : Opcode) (bytes rest : List Nat),
      op ∈ ([.Push8, .Push16, .Push32, .Push64] : List Opcode) →
      bytes.length = op.literalLen →
      Instruction.decode (op.toByte :: (bytes ++ rest))
        = .ok (⟨op, fromBytesBE bytes⟩, rest)) ∧
    (∀ (op : Opcode) (bytes rest : List Nat),
      op ∈ ([.Push8S, .Push16S, .Push32S] : List Opcode) →
      bytes.length = op.literalLen →
      Instruction.decode (op.toByte :: (bytes ++ rest))
        = .ok (⟨op, signExtend op.literalLen (fromBytesBE bytes)⟩, rest)) ∧
    Instruction.encode ⟨.Push8S, U64MOD - 1⟩ = [0x29, 0xff] ∧
    Instruction.decode [0x29, 0xff] = .ok (⟨.Push8S, U64MOD - 1⟩, []) := by
  refine ⟨?_, ?_, by rfl, by rfl⟩ <;>
  · intro op bytes rest hmem hlen
    simp only [List.mem_cons, List.not_mem_nil, or_false] at hmem
    rcases hmem with rfl | rfl | rfl | rfl <;>
      rw [decode_append_bytes _ bytes rest hlen (by decide) (by decide)] <;> rfl

/-- C9, witness: the sign-extension direction evaluated at `Push8S` with
literal byte `0xFF`. -/
theorem decode_widening_sign_rules_witness :
    Instruction.decode (Opcode.toByte .Push8S :: ([0xff] ++ []))
      = .ok (⟨.Push8S, signExtend (Opcode.literalLen .Push8S) (fromBytesBE [0xff])⟩, []) :=
  decode_widening_sign_rules.2.1 .Push8S [0xff] [] (by decide) (by rfl)

/-- C6: for every VM step that executes successfully, the program counter
after the instruction equals the program counter before it plus
`1 + width(opcode)` (mod 2^64); a taken `Jump` or taken `JCond`
additionally adds the popped offset to that post-advance value (a
non-taken `JCond` advances normally); and `Halt` makes `run` terminate
normally with the program counter unchanged. -/
theorem pc_advance_per_step (s : VmState) (i : Instruction) (rest : List Nat)
    (hdec : Instruction.decode (s.program.drop s.pc) = .ok (i, rest))
    (hpc : s.pc < s.program.length) :
    (∀ s', vmStep s = .next s' →
      (i.opcode ≠ .Jump → i.opcode ≠ .JCond →
        s'.pc = (s.pc + (1 + i.opcode.literalLen)) % U64MOD) ∧
      (i.opcode = .Jump →
        ∃ v st, s.stack = v :: st ∧
          s'.pc = (s.pc + (1 + i.opcode.literalLen) + v) % U64MOD) ∧
      (i.opcode = .JCond →
        ∃ v b st, s.stack = v :: b :: st ∧
          s'.pc = (if b % U64MOD ≠ 0
            then (s.pc + (1 + i.opcode.literalLen) + v) % U64MOD
            else (s.pc + (1 + i.opcode.literalLen)) % U64MOD))) ∧
    (∀ s', vmStep s = .done s' → i.opcode = .Halt ∧ s'.pc = s.pc ∧
      ∀ fuel, runLoop (fuel + 1) s = .ok (mkSummary s')) := by
  have hstep : vmStep s = (match executeInstruction s i with
      | .panics => StepRes.panicked
      | .err e => StepRes.fail e
      | .ok (s', advance) =>
        if advance = 0 then StepRes.done s'
        else StepRes.next { s' with pc := (s'.pc + advance) % U64MOD }) := by
    unfold vmStep; rw [if_pos hpc, hdec]
  cases hexec : executeInstruction s i with
  | panics =>
    rw [hexec] at hstep
    exact ⟨fun s' hn => by (rw [hstep] at hn; cases hn),
           fun s' hd => by (rw [hstep] at hd; cases hd)⟩
  | err e =>
    rw [hexec] at hstep
    exact ⟨fun s' hn => by (rw [hstep] at hn; cases hn),
           fun s' hd => by (rw [hstep] at hd; cases hd)⟩
  | ok p =>
    obtain ⟨s₁, adv⟩ := p
    rw [hexec] at hstep
    dsimp only at hstep
    have hc := executeInstruction_cases s i s₁ adv hexec
    by_cases hadv : adv = 0
    · rw [if_pos hadv] at hstep
      have hH : i.opcode = .Halt := by
        by_cases h1 : i.opcode = .Halt
        · exact h1
        · by_cases h2 : i.opcode = .Jump
          · exact absurd ((hc.2.1 h2).1 ▸ hadv) (by simp)
          · by_cases h3 : i.opcode = .JCond
            · exact absurd ((hc.2.2.1 h3).1 ▸ hadv) (by simp)
            · have h4 := (hc.2.2.2 h1 h2 h3).1
              omega
      have hs₁ : s₁ = s := (hc.1 hH).2
      refine ⟨fun s' hn => by (rw [hstep] at hn; cases hn), fun s' hd => ?_⟩
      rw [hstep] at hd
      cases hd
      exact ⟨hH, by rw [hs₁], fun fuel => runLoop_done hstep fuel⟩
    · rw [if_neg hadv] at hstep
      refine ⟨fun s' hn => ?_, fun s' hd => by (rw [hstep] at hd; cases hd)⟩
      rw [hstep] at hn
      cases hn
      have hHne : i.opcode ≠ .Halt := by
        intro hH
        exact hadv (hc.1 hH).1
      refine ⟨?_, ?_, ?_⟩
      · intro hJ hC
        have h4 := hc.2.2.2 hHne hJ hC
        rw [h4.1, h4.2]
      · intro hJ
        obtain ⟨ha1, v, st, hst, hs₁⟩ := hc.2.1 hJ
        refine ⟨v, st, hst, ?_⟩
        rw [hs₁, ha1, hJ]
        simp only [Opcode.literalLen, U64MOD]
        omega
      · intro hC
        obtain ⟨ha1, v, b, st, hst, hs₁⟩ := hc.2.2.1 hC
        refine ⟨v, b, st, hst, ?_⟩
        by_cases hb : b % U64MOD ≠ 0
        · rw [if_pos hb] at hs₁ ⊢
          rw [hs₁, ha1, hC]
          simp only [Opcode.literalLen, U64MOD]
          try omega
        · rw [if_neg hb] at hs₁ ⊢
          rw [hs₁, ha1, hC]
          simp only [Opcode.literalLen, U64MOD]
          try omega




/-- C10: when a `Jump` (or a taken `JCond`) pops an offset that moves the
program counter to any position at or past the end of the program —
including a negative offset wrapping around mod 2^64, since the popped
cell `v` is arbitrary — `run` terminates normally on the next loop
iteration and returns an `ExecutionSummary`; no runtime error is raised
for the out-of-range program counter. -/
theorem jump_out_of_range_terminates (s : VmState) (i : Instruction) (rest : List Nat) (fuel : Nat)
    (hdec : Instruction.decode (s.program.drop s.pc) = .ok (i, rest))
    (hpc : s.pc < s.program.length) :
    (∀ v st, i.opcode = .Jump → s.stack = v :: st →
      s.program.length ≤ (s.pc + 1 + v) % U64MOD →
      runLoop (fuel + 2) s =
        .ok (mkSummary { s with stack := st, pc := (s.pc + 1 + v) % U64MOD })) ∧
    (∀ v b st, i.opcode = .JCond → s.stack = v :: b :: st → b % U64MOD ≠ 0 →
      s.program.length ≤ (s.pc + 1 + v) % U64MOD →
      runLoop (fuel + 2) s =
        .ok (mkSummary { s with stack := st, pc := (s.pc + 1 + v) % U64MOD })) := by
  constructor
  · intro v st hop hstack htarget
    obtain ⟨op, lit⟩ := i
    dsimp only at hop
    subst hop
    have hexec : executeInstruction s ⟨Opcode.Jump, lit⟩
        = .ok ({ s with stack := st, pc := (s.pc + v) % U64MOD }, 1) := by
      dsimp only [executeInstruction]
      rw [jump_exec hstack]
      rfl
    have hstep : vmStep s
        = .next { s with stack := st, pc := (((s.pc + v) % U64MOD) + 1) % U64MOD } := by
      unfold vmStep
      rw [if_pos hpc, hdec]
      dsimp only
      rw [hexec]
      rfl
    have hpceq : (((s.pc + v) % U64MOD) + 1) % U64MOD = (s.pc + 1 + v) % U64MOD := by
      simp only [U64MOD]; omega
    rw [hpceq] at hstep
    have hdone : vmStep { s with stack := st, pc := (s.pc + 1 + v) % U64MOD }
        = .done { s with stack := st, pc := (s.pc + 1 + v) % U64MOD } := by
      apply vmStep_done_of_pc_ge
      simpa using not_lt.mpr htarget
    rw [show fuel + 2 = (fuel + 1) + 1 from rfl, runLoop_next hstep, runLoop_done hdone]
  · intro v b st hop hstack hb htarget
    obtain ⟨op, lit⟩ := i
    dsimp only at hop
    subst hop
    have hexec : executeInstruction s ⟨Opcode.JCond, lit⟩
        = .ok ({ s with stack := st, pc := (s.pc + v) % U64MOD }, 1) := by
      dsimp only [executeInstruction]
      rw [jcond_exec hstack hb]
      rfl
    have hstep : vmStep s
        = .next { s with stack := st, pc := (((s.pc + v) % U64MOD) + 1) % U64MOD } := by
      unfold vmStep
      rw [if_pos hpc, hdec]
      dsimp only
      rw [hexec]
      rfl
    have hpceq : (((s.pc + v) % U64MOD) + 1) % U64MOD = (s.pc + 1 + v) % U64MOD := by
      simp only [U64MOD]; omega
    rw [hpceq] at hstep
    have hdone : vmStep { s with stack := st, pc := (s.pc + 1 + v) % U64MOD }
        = .done { s with stack := st, pc := (s.pc + 1 + v) % U64MOD } := by
      apply vmStep_done_of_pc_ge
      simpa using not_lt.mpr htarget
    rw [show fuel + 2 = (fuel + 1) + 1 from rfl, runLoop_next hstep, runLoop_done hdone]


/-- C6, witness: a `Push8 5` at the start of a two-byte program advances
the PC by 2. -/
theorem pc_advance_per_step_witness :
    ∃ s', vmStep (VmState.init [0x28, 5] none false) = StepRes.next s' ∧
      s'.pc = ((VmState.init [0x28, 5] none false).pc
        + (1 + Opcode.literalLen .Push8)) % U64MOD := by
  have h := pc_advance_per_step (VmState.init [0x28, 5] none false) ⟨.Push8, 5⟩ []
    (by rfl) (by decide)
  exact ⟨_, rfl, (h.1 _ rfl).1 (by decide) (by decide)⟩

/-- C10, witness: a lone `Jump` popping offset 5 lands past the end of the
one-byte program and the run returns a summary. -/
theorem jump_out_of_range_terminates_witness :
    runLoop 2 { VmState.init [0x60] none false with stack := [5] } =
      .ok (mkSummary
        { VmState.init [0x60] none false with
            stack := ([] : List Nat)
            pc := ((VmState.init [0x60] none false).pc + 1 + 5) % U64MOD }) := by
  have h := (jump_out_of_range_terminates
    { VmState.init [0x60] none false with stack := [5] } ⟨.Jump, 0⟩ [] 0
    (by rfl) (by decide)).1 5 [] rfl rfl (by decide)
  exact h


/-- C5, amended: for every `If` node, codegen emits the translation of the
condition, then `Not`, then an optimally-sized signed push of the encoded
byte length of the then-block, then `JCond`, then the then-instructions,
then the else-instructions; when the *encoded byte length of the emitted
else-instructions is nonzero* (not merely when the else-branch is
syntactically non-empty), the then-block additionally ends with a signed
push of that else length and a `Jump`.  The pushed distances are
`Instruction.combinedLen` of the branch bodies — encoded bytes, excluding
the `JCond`/`Jump` opcode byte itself. -/
theorem ifcond_layout (ctx ctx' : CgContext) (c : Ast) (b e : List Ast)
    (out : List Instruction)
    (h : translateOne ctx (Ast.ifCond c b e) = .ok (ctx', out)) :
    ∃ ctx₁ innerIf innerElse condI bodyI elseI,
      translateOne ctx c = .ok (ctx₁, condI) ∧
      translateSeq ctx₁ b = .ok (innerIf, bodyI) ∧
      translateSeq (ctx₁.exitScope innerIf) e = .ok (innerElse, elseI) ∧
      ctx' = (ctx₁.exitScope innerIf).exitScope innerElse ∧
      out = condI ++
          [Instruction.fromOpcode .Not,
           Instruction.optimalPushS
             ((Instruction.combinedLen (bodyI ++
               (if Instruction.combinedLen elseI > 0 then
                 [Instruction.optimalPushS (Instruction.combinedLen elseI : Int),
                  Instruction.fromOpcode .Jump]
               else []))) : Int),
           Instruction.fromOpcode .JCond] ++
          (bodyI ++
            (if Instruction.combinedLen elseI > 0 then
              [Instruction.optimalPushS (Instruction.combinedLen elseI : Int),
               Instruction.fromOpcode .Jump]
            else [])) ++ elseI := by
  unfold translateOne at h
  cases h1 : translateOne ctx c with
  | error e1 => rw [h1] at h; cases h
  | ok p1 =>
    obtain ⟨ctx₁, condI⟩ := p1
    rw [h1] at h
    dsimp only at h
    cases h2 : translateSeq ctx₁ b with
    | error e2 => rw [h2] at h; cases h
    | ok p2 =>
      obtain ⟨innerIf, bodyI⟩ := p2
      rw [h2] at h
      dsimp only at h
      cases h3 : translateSeq (ctx₁.exitScope innerIf) e with
      | error e3 => rw [h3] at h; cases h
      | ok p3 =>
        obtain ⟨innerElse, elseI⟩ := p3
        rw [h3] at h
        dsimp only at h
        cases h
        exact ⟨ctx₁, innerIf, innerElse, condI, bodyI, elseI, rfl, h2, h3, rfl, rfl⟩

/-- C5, counterexample: an `If` node whose else-branch is syntactically
non-empty (`[Block []]`) but encodes to zero bytes gets *no* trailing
`Jump`/push appended to its then-block — the emitted list contains no
`Jump` at all — contradicting the claim's "when E is non-empty" condition. -/
theorem ifcond_nonempty_else_without_jump :
    translateOne CgContext.empty (Ast.ifCond (.boolean true) [] [.block []])
      = .ok (CgContext.empty,
        [Instruction.optimalPush 1, Instruction.fromOpcode .Not,
         Instruction.optimalPushS 0, Instruction.fromOpcode .JCond]) ∧
    ([Ast.block []] ≠ ([] : List Ast)) ∧
    Instruction.fromOpcode .Jump ∉
      [Instruction.optimalPush 1, Instruction.fromOpcode .Not,
       Instruction.optimalPushS 0, Instruction.fromOpcode .JCond] := by
  refine ⟨by rfl, by simp, by decide⟩


/-- C5, witness: the layout theorem evaluated on
`if true { print 1 } else { print 0 }`. -/
theorem ifcond_layout_witness :
    ∃ ctx₁ innerIf innerElse condI bodyI elseI,
      translateOne CgContext.empty (Ast.boolean true) = .ok (ctx₁, condI) ∧
      translateSeq ctx₁ [Ast.print (.int 1)] = .ok (innerIf, bodyI) ∧
      translateSeq (ctx₁.exitScope innerIf) [Ast.print (.int 0)] = .ok (innerElse, elseI) ∧
      CgContext.empty = (ctx₁.exitScope innerIf).exitScope innerElse ∧
      [Instruction.optimalPush 1, Instruction.fromOpcode .Not,
       Instruction.optimalPushS 6, Instruction.fromOpcode .JCond,
       Instruction.optimalPush 1, Instruction.fromOpcode .Print,
       Instruction.optimalPushS 3, Instruction.fromOpcode .Jump,
       Instruction.optimalPush 0, Instruction.fromOpcode .Print] = condI ++
          [Instruction.fromOpcode .Not,
           Instruction.optimalPushS
             ((Instruction.combinedLen (bodyI ++
               (if Instruction.combinedLen elseI > 0 then
                 [Instruction.optimalPushS (Instruction.combinedLen elseI : Int),
                  Instruction.fromOpcode .Jump]
               else []))) : Int),
           Instruction.fromOpcode .JCond] ++
          (bodyI ++
            (if Instruction.combinedLen elseI > 0 then
              [Instruction.optimalPushS (Instruction.combinedLen elseI : Int),
               Instruction.fromOpcode .Jump]
            else [])) ++ elseI :=
  ifcond_layout CgContext.empty CgContext.empty (Ast.boolean true)
    [Ast.print (.int 1)] [Ast.print (.int 0)]
    [Instruction.optimalPush 1, Instruction.fromOpcode .Not,
     Instruction.optimalPushS 6, Instruction.fromOpcode .JCond,
     Instruction.optimalPush 1, Instruction.fromOpcode .Print,
     Instruction.optimalPushS 3, Instruction.fromOpcode .Jump,
     Instruction.optimalPush 0, Instruction.fromOpcode .Print] (by rfl)

/-- C4: for every source program accepted by the type checker, `translate`
succeeds, and the emitted instruction list begins with exactly two
instructions — an optimal unsigned push of the final context's maximum
simultaneous slot count followed by `VarRes` — followed by the translation
of the top-level statements in order (`translateSeq`, which concatenates
the per-statement translations left to right).  The key step is that the
codegen context's name list always mirrors the typing context's, so
`UndeclaredVariable` cannot occur on a well-typed program. -/
theorem translate_succeeds_on_well_typed (program : List Ast) (ty : Ty)
    (tctx' : TypingContext) (h : typecheck program = .ok (ty, tctx')) :
    ∃ ctx instrs, translateSeq CgContext.empty program = .ok (ctx, instrs) ∧
      translate program = .ok (Instruction.optimalPush ctx.maxVars ::
        Instruction.fromOpcode .VarRes :: instrs) := by
  obtain ⟨ctx, instrs, htr, _⟩ :=
    translateSeq_names program [] _ _ CgContext.empty h rfl
  refine ⟨ctx, instrs, htr, ?_⟩
  unfold translate
  rw [htr]

/-- C4, witness: the program `a = 5; print a;` typechecks and compiles to
a `Push8 1; VarRes` preamble followed by its statement translations. -/
theorem translate_succeeds_on_well_typed_witness :
    ∃ ctx instrs,
      translateSeq CgContext.empty [Ast.assign "a" (.int 5), Ast.print (.var "a")]
        = .ok (ctx, instrs) ∧
      translate [Ast.assign "a" (.int 5), Ast.print (.var "a")]
        = .ok (Instruction.optimalPush ctx.maxVars ::
            Instruction.fromOpcode .VarRes :: instrs) :=
  translate_succeeds_on_well_typed [Ast.assign "a" (.int 5), Ast.print (.var "a")]
    .unit [("a", .int)] (by rfl)

end Hypescript
